import Mathlib

/-!
Discrete motion validation (`ompl/base/src/DiscreteMotionValidator.cpp`).

A shallow embedding of `ompl::base::DiscreteMotionValidator` and proofs about it.

Modelling choices.

* `double` values are exact rationals (`ℚ`).  An `int` value is an integer (`ℤ`); the one
  `int` operation of the code that can leave the 32-bit range, the sum `x.first + x.second`,
  is reduced to 32 bits in two's complement (`wrapInt`).  The C++ `int` division `/`
  truncates toward zero and is `Int.tdiv`.
* A `State` is a value of an arbitrary type `σ`.  The collaborators the validator calls
  (`SpaceInformation::isValid`, `StateManifold::distanceAsFraction`,
  `StateManifold::interpolate`) are declared in headers and are parameters here; an
  `interpolate(s1, s2, t, out)` call is the function giving the state written to `out`.
  The collaborators are pure: the same arguments give the same result, and `lastValid.first`
  does not alias `s1` or `s2` (these are `const State *`).
* Every function returns, besides its C++ result, the list of observable events it performs
  in program order (calls to the collaborators and stores to the caller's `lastValid`).
* The discretization count is the exact ceiling of the exact quotient; the loops take the
  count as a parameter, and what is proved about them holds for whatever count they are
  given.  The model stands for the program as long as the count fits an `int`.
* The `for` loop of the linear scan ends after at most `nd - 1` passes and is a total function.
  The `while` loop of the binary subdivision need not end when the sum overflows: it takes a
  bound `fuel` on the number of its passes and returns `none` when the loop has not ended
  within that many passes.
-/

namespace ompl.base

/-- Destination of an `interpolate` call: the scratch state `test`, or the caller's
`lastValid.first`. -/
inductive Dest where
  | test
  | lastValidFirst
  deriving DecidableEq, Repr

/-- Observable events of a `checkMotion` call. -/
inductive Event (σ : Type) where
  /-- The call `si_->isValid(s)`. -/
  | isValid (s : σ)
  /-- The call `si_->allocState()`. -/
  | allocState
  /-- The call `si_->freeState(test)`. -/
  | freeState
  /-- The call `stateManifold_->interpolate(s1, s2, t, dest)`. -/
  | interpolate (t : ℚ) (dest : Dest)
  /-- The assignment `lastValid.second = f`. -/
  | storeSecond (f : ℚ)
  deriving DecidableEq, Repr

/-- The part of `StateManifold` used by the validator. -/
structure StateManifold (σ : Type) where
  distanceAsFraction : σ → σ → ℚ
  interpolate : σ → σ → ℚ → σ

/-- The part of `SpaceInformation` used by the validator. -/
structure SpaceInformation (σ : Type) where
  isValid : σ → Bool
  getStateManifold : StateManifold σ

/-- The data members of `DiscreteMotionValidator`. -/
structure DiscreteMotionValidator (σ : Type) where
  si_ : SpaceInformation σ
  resolution_ : ℚ
  stateManifold_ : StateManifold σ

/-- The value `std::numeric_limits<double>::epsilon()`, which is `2^-52`. -/
def epsilon : ℚ := 1 / 2 ^ 52

/-- The body of `defaultSettings`. -/
def defaultSettings {σ : Type} (v : DiscreteMotionValidator σ) : DiscreteMotionValidator σ :=
  { v with resolution_ := 1 / 100, stateManifold_ := v.si_.getStateManifold }

/-- The exception thrown by `setStateValidityCheckingResolution`. -/
inductive Exception where
  | resolutionOutOfRange
  deriving DecidableEq, Repr

/-- The range test written in the guard of `setStateValidityCheckingResolution`:
`x < epsilon || x > 1.0 - epsilon`. -/
def outOfRange (x : ℚ) : Bool :=
  decide (x < epsilon) || decide (x > 1 - epsilon)

/-- The function `setStateValidityCheckingResolution(resolution)`: the first component is the
exception thrown, if any, the second the validator after the call. -/
def setStateValidityCheckingResolution {σ : Type} (v : DiscreteMotionValidator σ)
    (resolution : ℚ) : Option Exception × DiscreteMotionValidator σ :=
  if outOfRange v.resolution_ then
    (some Exception.resolutionOutOfRange, v)
  else
    (none, { v with resolution_ := resolution })

/-- The value `(int)ceil(stateManifold_->distanceAsFraction(s1, s2) / resolution_)` in exact
arithmetic: the ceiling of the exact quotient, where the program rounds the quotient to a
`double` and converts its ceiling to `int`. -/
def discretization {σ : Type} (v : DiscreteMotionValidator σ) (s1 s2 : σ) : ℤ :=
  ⌈v.stateManifold_.distanceAsFraction s1 s2 / v.resolution_⌉

/-- The state interpolated at `(double)j / (double)nd`. -/
def probe {σ : Type} (v : DiscreteMotionValidator σ) (s1 s2 : σ) (nd j : ℤ) : σ :=
  v.stateManifold_.interpolate s1 s2 ((j : ℚ) / (nd : ℚ))

/-- What a linear-scan `checkMotion(s1, s2, lastValid)` call leaves behind. -/
structure Outcome (σ : Type) where
  /-- The returned boolean. -/
  result : Bool
  /-- The pair `lastValid` after the call: the state `lastValid.first` points to
  (`none` for a null pointer) and `lastValid.second`. -/
  lastValid : Option σ × ℚ
  /-- The events performed, in order. -/
  trace : List (Event σ)

/-- The `for (int j = 1 ; j < nd ; ++j)` loop of `checkMotion(s1, s2, lastValid)`, entered
with loop variable `j`. -/
def forLoop {σ : Type} (v : DiscreteMotionValidator σ) (s1 s2 : σ) (nd : ℤ)
    (lastValid : Option σ × ℚ) (j : ℤ) : Outcome σ :=
  if j < nd then
    let t : ℚ := (j : ℚ) / (nd : ℚ)
    let test := v.stateManifold_.interpolate s1 s2 t
    if !v.si_.isValid test then
      let f : ℚ := ((j - 1 : ℤ) : ℚ) / (nd : ℚ)
      match lastValid.1 with
      | some _ =>
        { result := false
          lastValid := (some (v.stateManifold_.interpolate s1 s2 f), f)
          trace := [Event.interpolate t Dest.test, Event.isValid test,
                    Event.interpolate f Dest.lastValidFirst, Event.storeSecond f] }
      | none =>
        { result := false
          lastValid := (none, f)
          trace := [Event.interpolate t Dest.test, Event.isValid test, Event.storeSecond f] }
    else
      let r := forLoop v s1 s2 nd lastValid (j + 1)
      { r with trace := Event.interpolate t Dest.test :: Event.isValid test :: r.trace }
  else
    { result := true, lastValid := lastValid, trace := [] }
termination_by (nd - j).toNat
decreasing_by omega

/-- The linear-scan `checkMotion(s1, s2, lastValid)`. -/
def checkMotionLastValid {σ : Type} (v : DiscreteMotionValidator σ) (s1 s2 : σ)
    (lastValid : Option σ × ℚ) : Outcome σ :=
  if !v.si_.isValid s2 then
    { result := false, lastValid := lastValid, trace := [Event.isValid s2] }
  else
    let nd := discretization v s1 s2
    let r := forLoop v s1 s2 nd lastValid 1
    { r with trace := Event.isValid s2 :: Event.allocState :: (r.trace ++ [Event.freeState]) }

/-- The value of an `int` expression whose exact result is `z`: the result reduced to 32 bits
in two's complement.  (Signed overflow is undefined in C++; wrap-around is what the usual
targets compute.) -/
def wrapInt (z : ℤ) : ℤ :=
  (z + 2 ^ 31) % 2 ^ 32 - 2 ^ 31

/-- What one pass through the body of the `while (!pos.empty())` loop does. -/
structure Pass (σ : Type) where
  /-- The queue after the pass, front first; `none` when the pass left the loop by `break`. -/
  pos : Option (List (ℤ × ℤ))
  /-- The events performed by the pass. -/
  trace : List (Event σ)

/-- One pass through the body of the `while` loop of `checkMotion(s1, s2)`, with `x` the
front of the queue and `rest` the entries behind it.  The sum `x.first + x.second` is an
`int` sum; `mid` is at most `2 ^ 30` in absolute value, so `mid - 1` and `mid + 1` are
exact. -/
def loopBody {σ : Type} (v : DiscreteMotionValidator σ) (s1 s2 : σ) (nd : ℤ)
    (x : ℤ × ℤ) (rest : List (ℤ × ℤ)) : Pass σ :=
  let mid : ℤ := (wrapInt (x.1 + x.2)).tdiv 2
  let t : ℚ := (mid : ℚ) / (nd : ℚ)
  let test := v.stateManifold_.interpolate s1 s2 t
  if !v.si_.isValid test then
    { pos := none, trace := [Event.interpolate t Dest.test, Event.isValid test] }
  else
    let pos₁ := if x.1 < mid then rest ++ [(x.1, mid - 1)] else rest
    let pos₂ := if x.2 > mid then pos₁ ++ [(mid + 1, x.2)] else pos₁
    { pos := some pos₂, trace := [Event.interpolate t Dest.test, Event.isValid test] }

/-- The `while (!pos.empty())` loop of `checkMotion(s1, s2)` started on queue `pos` with
`result == true`, allowed `fuel` passes: the final value of `result` and the events performed,
or `none` when the loop has not ended within `fuel` passes. -/
def whileLoop {σ : Type} (v : DiscreteMotionValidator σ) (s1 s2 : σ) (nd : ℤ) :
    ℕ → List (ℤ × ℤ) → Option (Bool × List (Event σ))
  | _, [] => some (true, [])
  | 0, _ :: _ => none
  | fuel + 1, x :: rest =>
    match (loopBody v s1 s2 nd x rest).pos with
    | none => some (false, (loopBody v s1 s2 nd x rest).trace)
    | some pos' =>
      match whileLoop v s1 s2 nd fuel pos' with
      | none => none
      | some r => some (r.1, (loopBody v s1 s2 nd x rest).trace ++ r.2)

/-- The binary-subdivision `checkMotion(s1, s2)` with its loop allowed `fuel` passes: the
returned boolean and the events performed, or `none` when the loop has not ended within
`fuel` passes. -/
def checkMotion {σ : Type} (fuel : ℕ) (v : DiscreteMotionValidator σ) (s1 s2 : σ) :
    Option (Bool × List (Event σ)) :=
  if !v.si_.isValid s2 then
    some (false, [Event.isValid s2])
  else
    let nd := discretization v s1 s2
    if nd ≥ 2 then
      match whileLoop v s1 s2 nd fuel [(1, nd - 1)] with
      | none => none
      | some r => some (r.1, Event.isValid s2 :: Event.allocState :: (r.2 ++ [Event.freeState]))
    else
      some (true, [Event.isValid s2])

/-! ## The scenario of the specification's concrete example

The configuration space is the interval `[0, 10]` of the line, the inadmissible region is
`[4, 6]`, the distance is normalised by the extent `10` and interpolation is linear. -/

/-- The manifold of the interval `[0, 10]`. -/
def lineManifold : StateManifold ℚ where
  distanceAsFraction a b := |a - b| / 10
  interpolate a b t := a + (b - a) * t

/-- The interval `[0, 10]` with the inadmissible region `[4, 6]`. -/
def lineSpace : SpaceInformation ℚ where
  isValid x := !(decide (4 ≤ x) && decide (x ≤ 6))
  getStateManifold := lineManifold

/-- A validator on `lineSpace` with the given stored resolution. -/
def lineValidator (resolution : ℚ) : DiscreteMotionValidator ℚ where
  si_ := lineSpace
  resolution_ := resolution
  stateManifold_ := lineManifold

/-- The line without obstacle and without bounds: every point is admissible. -/
def freeSpace : SpaceInformation ℚ where
  isValid _ := true
  getStateManifold := lineManifold

/-- A validator on `freeSpace` with the given stored resolution. -/
def freeValidator (resolution : ℚ) : DiscreteMotionValidator ℚ where
  si_ := freeSpace
  resolution_ := resolution
  stateManifold_ := lineManifold

/-- The interval `[0, 10]` without obstacle: a point is admissible when it lies in the
interval. -/
def boundedSpace : SpaceInformation ℚ where
  isValid x := decide (0 ≤ x) && decide (x ≤ 10)
  getStateManifold := lineManifold

/-- A validator on `boundedSpace` with the given stored resolution. -/
def boundedValidator (resolution : ℚ) : DiscreteMotionValidator ℚ where
  si_ := boundedSpace
  resolution_ := resolution
  stateManifold_ := lineManifold

/-! ## Observations on runs -/

/-- Whether an event is an admissibility test, a call of `isValid`. -/
def Event.isTest {σ : Type} : Event σ → Bool
  | Event.isValid _ => true
  | _ => false

/-- Whether an event is the acquisition of a scratch state, a call of `allocState`. -/
def Event.isAlloc {σ : Type} : Event σ → Bool
  | Event.allocState => true
  | _ => false

/-- Whether an event is the release of a scratch state, a call of `freeState`. -/
def Event.isFree {σ : Type} : Event σ → Bool
  | Event.freeState => true
  | _ => false

/-- Whether an event writes to the caller's `lastValid`: the store to `lastValid.second` or an
interpolation into the state `lastValid.first` points to. -/
def Event.isWrite {σ : Type} : Event σ → Bool
  | Event.storeSecond _ => true
  | Event.interpolate _ Dest.lastValidFirst => true
  | _ => false

/-- The `n` consecutive integers `j0, j0 + 1, ..., j0 + n - 1`. -/
def indices (j0 : ℤ) : ℕ → List ℤ
  | 0 => []
  | n + 1 => j0 :: indices (j0 + 1) n

/-- The indices of the closed range `[x.first, x.second]`, in increasing order. -/
def rangeIndices (x : ℤ × ℤ) : List ℤ :=
  indices x.1 (x.2 - x.1 + 1).toNat

/-- The indices of all ranges of a queue, front first. -/
def queueIndices : List (ℤ × ℤ) → List ℤ
  | [] => []
  | x :: rest => rangeIndices x ++ queueIndices rest

/-- The events of probing the indices `ks` one after the other: for each index `k` the
interpolation at `k / nd` into the scratch state and the admissibility test of the result. -/
def probeEvents {σ : Type} (v : DiscreteMotionValidator σ) (s1 s2 : σ) (nd : ℤ) :
    List ℤ → List (Event σ)
  | [] => []
  | k :: ks =>
    Event.interpolate ((k : ℚ) / (nd : ℚ)) Dest.test :: Event.isValid (probe v s1 s2 nd k) ::
      probeEvents v s1 s2 nd ks

/-- The ranges a pass pushes to the back of the queue after an admissible probe of the
midpoint of the front range `x`: the left remainder and the right remainder, each only if
non-empty. -/
def pushed (x : ℤ × ℤ) : List (ℤ × ℤ) :=
  (if x.1 < (wrapInt (x.1 + x.2)).tdiv 2 then [(x.1, (wrapInt (x.1 + x.2)).tdiv 2 - 1)] else []) ++
    (if x.2 > (wrapInt (x.1 + x.2)).tdiv 2 then [((wrapInt (x.1 + x.2)).tdiv 2 + 1, x.2)] else [])

/-- The validator after successive calls of `setStateValidityCheckingResolution` with the
given arguments, each exception being caught by the caller. -/
def setResolutions {σ : Type} (v : DiscreteMotionValidator σ) :
    List ℚ → DiscreteMotionValidator σ
  | [] => v
  | x :: xs => setResolutions (setStateValidityCheckingResolution v x).2 xs

/-! ## Auxiliary lemmas -/

theorem forLoop_of_not_lt {σ : Type} (v : DiscreteMotionValidator σ) (s1 s2 : σ) (nd : ℤ)
    (lastValid : Option σ × ℚ) (j : ℤ) (h : ¬ j < nd) :
    forLoop v s1 s2 nd lastValid j = { result := true, lastValid := lastValid, trace := [] } := by
  rw [forLoop, if_neg h]

theorem forLoop_of_valid {σ : Type} (v : DiscreteMotionValidator σ) (s1 s2 : σ) (nd : ℤ)
    (lastValid : Option σ × ℚ) (j : ℤ) (h : j < nd)
    (hv : v.si_.isValid (probe v s1 s2 nd j) = true) :
    forLoop v s1 s2 nd lastValid j =
      { forLoop v s1 s2 nd lastValid (j + 1) with
        trace := Event.interpolate ((j : ℚ) / (nd : ℚ)) Dest.test ::
          Event.isValid (probe v s1 s2 nd j) :: (forLoop v s1 s2 nd lastValid (j + 1)).trace } := by
  unfold probe at hv
  rw [forLoop, if_pos h]
  simp only [hv, Bool.not_true, Bool.false_eq_true, if_false]
  rfl

theorem forLoop_of_invalid {σ : Type} (v : DiscreteMotionValidator σ) (s1 s2 : σ) (nd : ℤ)
    (lastValid : Option σ × ℚ) (j : ℤ) (h : j < nd)
    (hv : v.si_.isValid (probe v s1 s2 nd j) = false) :
    (forLoop v s1 s2 nd lastValid j).result = false ∧
    (forLoop v s1 s2 nd lastValid j).lastValid =
      (lastValid.1.map fun _ => v.stateManifold_.interpolate s1 s2 (((j - 1 : ℤ) : ℚ) / (nd : ℚ)),
        ((j - 1 : ℤ) : ℚ) / (nd : ℚ)) ∧
    (forLoop v s1 s2 nd lastValid j).trace =
      Event.interpolate ((j : ℚ) / (nd : ℚ)) Dest.test :: Event.isValid (probe v s1 s2 nd j) ::
        ((lastValid.1.toList.map fun _ =>
          Event.interpolate (((j - 1 : ℤ) : ℚ) / (nd : ℚ)) Dest.lastValidFirst) ++
        [Event.storeSecond (((j - 1 : ℤ) : ℚ) / (nd : ℚ))]) := by
  unfold probe at hv
  rw [forLoop, if_pos h]
  simp only [hv, Bool.not_false, if_true]
  cases lastValid.1 <;> simp [probe]

/-- The linear scan started at `j` succeeds exactly when every index from `j` up to `nd - 1`
is admissible. -/
theorem forLoop_result_iff {σ : Type} (v : DiscreteMotionValidator σ) (s1 s2 : σ) (nd : ℤ)
    (lastValid : Option σ × ℚ) (j : ℤ) :
    (forLoop v s1 s2 nd lastValid j).result = true ↔
      ∀ k : ℤ, j ≤ k → k < nd → v.si_.isValid (probe v s1 s2 nd k) = true := by
  generalize hn : (nd - j).toNat = n
  induction n generalizing j with
  | zero =>
    rw [forLoop_of_not_lt v s1 s2 nd lastValid j (by omega)]
    simp only [true_iff]
    intro k hk hk'
    omega
  | succ n ih =>
    have hj : j < nd := by omega
    cases hv : v.si_.isValid (probe v s1 s2 nd j) with
    | false =>
      rw [(forLoop_of_invalid v s1 s2 nd lastValid j hj hv).1]
      simp only [Bool.false_eq_true, false_iff]
      intro hall
      have := hall j (le_refl j) hj
      rw [hv] at this
      exact Bool.noConfusion this
    | true =>
      rw [forLoop_of_valid v s1 s2 nd lastValid j hj hv]
      simp only
      rw [ih (j + 1) (by omega)]
      constructor
      · intro hall k hk hk'
        rcases eq_or_lt_of_le hk with rfl | hlt
        · exact hv
        · exact hall k (by omega) hk'
      · intro hall k hk hk'
        exact hall k (by omega) hk'

/-- The linear scan started at `j0` stops at the first inadmissible index `j` at or after
`j0` and reports the fraction `(j - 1) / nd`. -/
theorem forLoop_first_invalid {σ : Type} (v : DiscreteMotionValidator σ) (s1 s2 : σ) (nd : ℤ)
    (lastValid : Option σ × ℚ) (j0 j : ℤ) (h0 : j0 ≤ j) (h : j < nd)
    (hv : v.si_.isValid (probe v s1 s2 nd j) = false)
    (hbefore : ∀ k : ℤ, j0 ≤ k → k < j → v.si_.isValid (probe v s1 s2 nd k) = true) :
    (forLoop v s1 s2 nd lastValid j0).result = false ∧
    (forLoop v s1 s2 nd lastValid j0).lastValid =
      (lastValid.1.map fun _ => v.stateManifold_.interpolate s1 s2 (((j - 1 : ℤ) : ℚ) / (nd : ℚ)),
        ((j - 1 : ℤ) : ℚ) / (nd : ℚ)) := by
  generalize hn : (j - j0).toNat = n
  induction n generalizing j0 with
  | zero =>
    have : j0 = j := by omega
    subst this
    exact ⟨(forLoop_of_invalid v s1 s2 nd lastValid j0 h hv).1,
      (forLoop_of_invalid v s1 s2 nd lastValid j0 h hv).2.1⟩
  | succ n ih =>
    have hlt : j0 < j := by omega
    rw [forLoop_of_valid v s1 s2 nd lastValid j0 (by omega) (hbefore j0 (le_refl j0) hlt)]
    simp only
    exact ih (j0 + 1) (by omega) (fun k hk hk' => hbefore k (by omega) hk') (by omega)

/-- The boolean of the linear scan: true exactly when `s2` and all interior probes are
admissible. -/
theorem linearScan_result_iff {σ : Type} (v : DiscreteMotionValidator σ) (s1 s2 : σ)
    (lastValid : Option σ × ℚ) :
    (checkMotionLastValid v s1 s2 lastValid).result = true ↔
      (v.si_.isValid s2 = true ∧ ∀ j : ℤ, 1 ≤ j → j ≤ discretization v s1 s2 - 1 →
        v.si_.isValid (probe v s1 s2 (discretization v s1 s2) j) = true) := by
  unfold checkMotionLastValid
  cases hB : v.si_.isValid s2 with
  | false => simp
  | true =>
    simp only [Bool.not_true, Bool.false_eq_true, if_false, true_and]
    rw [forLoop_result_iff]
    constructor
    · intro h j h1 h2
      exact h j h1 (by omega)
    · intro h j h1 h2
      exact h j h1 (by omega)

/-- When the linear scan stops at the first inadmissible index `j`, it performs the store of
`(j - 1) / nd` and, if a last-valid state was supplied, the interpolation into it. -/
theorem forLoop_first_invalid_trace {σ : Type} (v : DiscreteMotionValidator σ) (s1 s2 : σ)
    (nd : ℤ) (lastValid : Option σ × ℚ) (j0 j : ℤ) (h0 : j0 ≤ j) (h : j < nd)
    (hv : v.si_.isValid (probe v s1 s2 nd j) = false)
    (hbefore : ∀ k : ℤ, j0 ≤ k → k < j → v.si_.isValid (probe v s1 s2 nd k) = true) :
    Event.storeSecond (((j - 1 : ℤ) : ℚ) / (nd : ℚ)) ∈ (forLoop v s1 s2 nd lastValid j0).trace ∧
    (lastValid.1.isSome = true →
      Event.interpolate (((j - 1 : ℤ) : ℚ) / (nd : ℚ)) Dest.lastValidFirst ∈
        (forLoop v s1 s2 nd lastValid j0).trace) := by
  generalize hn : (j - j0).toNat = n
  induction n generalizing j0 with
  | zero =>
    have : j0 = j := by omega
    subst this
    rw [(forLoop_of_invalid v s1 s2 nd lastValid j0 h hv).2.2]
    cases lastValid.1 <;> simp
  | succ n ih =>
    have hlt : j0 < j := by omega
    rw [forLoop_of_valid v s1 s2 nd lastValid j0 (by omega) (hbefore j0 (le_refl j0) hlt)]
    simp only
    have := ih (j0 + 1) (by omega) (fun k hk hk' => hbefore k (by omega) hk') (by omega)
    exact ⟨List.mem_cons_of_mem _ (List.mem_cons_of_mem _ this.1),
      fun hs => List.mem_cons_of_mem _ (List.mem_cons_of_mem _ (this.2 hs))⟩

/-! ### Index lists and probe events -/

theorem length_indices (j0 : ℤ) (n : ℕ) : (indices j0 n).length = n := by
  induction n generalizing j0 with
  | zero => rfl
  | succ n ih => simp [indices, ih]

theorem mem_indices (j0 : ℤ) (n : ℕ) (k : ℤ) : k ∈ indices j0 n ↔ j0 ≤ k ∧ k < j0 + n := by
  induction n generalizing j0 with
  | zero => simp [indices]
  | succ n ih =>
    simp only [indices, List.mem_cons, ih]
    push_cast
    omega

theorem nodup_indices (j0 : ℤ) (n : ℕ) : (indices j0 n).Nodup := by
  induction n generalizing j0 with
  | zero => simp [indices]
  | succ n ih =>
    simp only [indices, List.nodup_cons, mem_indices]
    exact ⟨by omega, ih (j0 + 1)⟩

theorem indices_append (j0 : ℤ) (m n : ℕ) :
    indices j0 (m + n) = indices j0 m ++ indices (j0 + m) n := by
  induction m generalizing j0 with
  | zero => simp [indices]
  | succ m ih =>
    have h : m + 1 + n = (m + n) + 1 := by omega
    rw [h]
    simp only [indices, List.cons_append, ih]
    push_cast
    rw [show j0 + 1 + (m : ℤ) = j0 + ((m : ℤ) + 1) by ring]

theorem probeEvents_append {σ : Type} (v : DiscreteMotionValidator σ) (s1 s2 : σ) (nd : ℤ)
    (ks ls : List ℤ) :
    probeEvents v s1 s2 nd (ks ++ ls) = probeEvents v s1 s2 nd ks ++ probeEvents v s1 s2 nd ls := by
  induction ks with
  | nil => rfl
  | cons k ks ih => simp [probeEvents, ih]

theorem mem_probeEvents {σ : Type} (v : DiscreteMotionValidator σ) (s1 s2 : σ) (nd : ℤ)
    (ks : List ℤ) (e : Event σ) :
    e ∈ probeEvents v s1 s2 nd ks ↔
      ∃ k ∈ ks, e = Event.interpolate ((k : ℚ) / (nd : ℚ)) Dest.test ∨
        e = Event.isValid (probe v s1 s2 nd k) := by
  induction ks with
  | nil => simp [probeEvents]
  | cons k ks ih =>
    simp only [probeEvents, List.mem_cons, ih, exists_eq_or_imp]
    constructor
    · rintro (h | h | h)
      · exact Or.inl (Or.inl h)
      · exact Or.inl (Or.inr h)
      · exact Or.inr h
    · rintro ((h | h) | h)
      · exact Or.inl h
      · exact Or.inr (Or.inl h)
      · exact Or.inr (Or.inr h)

theorem countP_isTest_probeEvents {σ : Type} (v : DiscreteMotionValidator σ) (s1 s2 : σ)
    (nd : ℤ) (ks : List ℤ) :
    (probeEvents v s1 s2 nd ks).countP Event.isTest = ks.length := by
  induction ks with
  | nil => rfl
  | cons k ks ih => simp [probeEvents, Event.isTest, ih]

theorem countP_isAlloc_probeEvents {σ : Type} (v : DiscreteMotionValidator σ) (s1 s2 : σ)
    (nd : ℤ) (ks : List ℤ) :
    (probeEvents v s1 s2 nd ks).countP Event.isAlloc = 0 := by
  induction ks with
  | nil => rfl
  | cons k ks ih => simp [probeEvents, Event.isAlloc, ih]

theorem countP_isFree_probeEvents {σ : Type} (v : DiscreteMotionValidator σ) (s1 s2 : σ)
    (nd : ℤ) (ks : List ℤ) :
    (probeEvents v s1 s2 nd ks).countP Event.isFree = 0 := by
  induction ks with
  | nil => rfl
  | cons k ks ih => simp [probeEvents, Event.isFree, ih]

theorem any_isWrite_probeEvents {σ : Type} (v : DiscreteMotionValidator σ) (s1 s2 : σ)
    (nd : ℤ) (ks : List ℤ) :
    (probeEvents v s1 s2 nd ks).any Event.isWrite = false := by
  induction ks with
  | nil => rfl
  | cons k ks ih => simp [probeEvents, Event.isWrite, ih]

/-! ### The shape of a linear scan -/

/-- Either every index from `j0` on is admissible and the scan probes them all, or the scan
probes up to the first inadmissible index `j`, where it reports `(j - 1) / nd` and stops. -/
theorem forLoop_cases {σ : Type} (v : DiscreteMotionValidator σ) (s1 s2 : σ) (nd : ℤ)
    (lastValid : Option σ × ℚ) (j0 : ℤ) :
    ((∀ k : ℤ, j0 ≤ k → k < nd → v.si_.isValid (probe v s1 s2 nd k) = true) ∧
      forLoop v s1 s2 nd lastValid j0 =
        { result := true, lastValid := lastValid,
          trace := probeEvents v s1 s2 nd (indices j0 (nd - j0).toNat) }) ∨
    (∃ j : ℤ, j0 ≤ j ∧ j < nd ∧ v.si_.isValid (probe v s1 s2 nd j) = false ∧
      (∀ k : ℤ, j0 ≤ k → k < j → v.si_.isValid (probe v s1 s2 nd k) = true) ∧
      forLoop v s1 s2 nd lastValid j0 =
        { result := false
          lastValid := (lastValid.1.map fun _ =>
            v.stateManifold_.interpolate s1 s2 (((j - 1 : ℤ) : ℚ) / (nd : ℚ)),
            ((j - 1 : ℤ) : ℚ) / (nd : ℚ))
          trace := probeEvents v s1 s2 nd (indices j0 (j - j0 + 1).toNat) ++
            ((lastValid.1.toList.map fun _ =>
              Event.interpolate (((j - 1 : ℤ) : ℚ) / (nd : ℚ)) Dest.lastValidFirst) ++
            [Event.storeSecond (((j - 1 : ℤ) : ℚ) / (nd : ℚ))]) }) := by
  generalize hn : (nd - j0).toNat = n
  induction n generalizing j0 with
  | zero =>
    left
    refine ⟨fun k hk hk' => by omega, ?_⟩
    rw [forLoop_of_not_lt v s1 s2 nd lastValid j0 (by omega)]
    rfl
  | succ n ih =>
    have hj : j0 < nd := by omega
    cases hv : v.si_.isValid (probe v s1 s2 nd j0) with
    | false =>
      right
      refine ⟨j0, le_refl _, hj, hv, fun k hk hk' => by omega, ?_⟩
      obtain ⟨h1, h2, h3⟩ := forLoop_of_invalid v s1 s2 nd lastValid j0 hj hv
      have hone : (j0 - j0 + 1).toNat = 1 := by
        rw [sub_self]; rfl
      rw [hone]
      cases hfl : forLoop v s1 s2 nd lastValid j0 with
      | mk r l t =>
        rw [hfl] at h1 h2 h3
        simp only at h1 h2 h3
        subst h1 h2 h3
        rfl
    | true =>
      rw [forLoop_of_valid v s1 s2 nd lastValid j0 hj hv]
      rcases ih (j0 + 1) (by omega) with ⟨hall, heq⟩ | ⟨j, hj0, hjnd, hjv, hbefore, heq⟩
      · left
        refine ⟨?_, ?_⟩
        · intro k hk hk'
          rcases eq_or_lt_of_le hk with rfl | hlt
          · exact hv
          · exact hall k (by omega) hk'
        · rw [heq]
          rfl
      · right
        refine ⟨j, by omega, hjnd, hjv, ?_, ?_⟩
        · intro k hk hk'
          rcases eq_or_lt_of_le hk with rfl | hlt
          · exact hv
          · exact hbefore k (by omega) hk'
        · rw [heq]
          have hsucc : (j - j0 + 1).toNat = (j - (j0 + 1) + 1).toNat + 1 := by omega
          rw [hsucc]
          rfl

/-! ### Index lists of queues -/

theorem queueIndices_append (p q : List (ℤ × ℤ)) :
    queueIndices (p ++ q) = queueIndices p ++ queueIndices q := by
  induction p with
  | nil => rfl
  | cons x p ih => simp [queueIndices, ih]

theorem queueIndices_singleton (x : ℤ × ℤ) : queueIndices [x] = rangeIndices x := by
  simp [queueIndices]

theorem discretization_line : discretization (lineValidator (1 / 20)) 0 10 = 20 := by
  norm_num [discretization, lineValidator, lineManifold]

theorem getLast?_framed {α : Type} (a b c : α) (l : List α) :
    (a :: b :: (l ++ [c])).getLast? = some c := by
  rw [← List.cons_append, ← List.cons_append, List.getLast?_concat]

theorem checkMotionLastValid_of_s2_invalid {σ : Type} (v : DiscreteMotionValidator σ)
    (s1 s2 : σ) (lastValid : Option σ × ℚ) (hB : v.si_.isValid s2 = false) :
    checkMotionLastValid v s1 s2 lastValid =
      { result := false, lastValid := lastValid, trace := [Event.isValid s2] } := by
  simp only [checkMotionLastValid, hB, Bool.not_false, if_true]

/-! ### The 32-bit sum and the midpoint -/

theorem wrapInt_of_fits (z : ℤ) (h1 : -2 ^ 31 ≤ z) (h2 : z < 2 ^ 31) : wrapInt z = z := by
  unfold wrapInt
  omega

theorem wrapInt_bounds (z : ℤ) : -2 ^ 31 ≤ wrapInt z ∧ wrapInt z < 2 ^ 31 := by
  unfold wrapInt
  omega

/-- The midpoint of any `int` sum is at most `2 ^ 30` in absolute value, so that `mid - 1` and
`mid + 1` are exact. -/
theorem mid_fits (z : ℤ) :
    -2 ^ 31 ≤ (wrapInt z).tdiv 2 - 1 ∧ (wrapInt z).tdiv 2 + 1 < 2 ^ 31 := by
  have hw := wrapInt_bounds z
  have ht : 2 * (wrapInt z).tdiv 2 ≤ wrapInt z + 1 ∧ wrapInt z - 1 ≤ 2 * (wrapInt z).tdiv 2 := by
    rcases Int.le_total 0 (wrapInt z) with h | h
    · rw [Int.tdiv_eq_ediv h (by decide)]
      omega
    · have h2 : (wrapInt z).tdiv 2 = -((-(wrapInt z)).tdiv 2) := by
        rw [Int.neg_tdiv, neg_neg]
      rw [h2, Int.tdiv_eq_ediv (by omega) (by decide)]
      omega
  omega

theorem wrapInt_of_overflow (z : ℤ) (h1 : 2 ^ 31 ≤ z) (h2 : z < 2 ^ 32) :
    wrapInt z = z - 2 ^ 32 := by
  unfold wrapInt
  omega

theorem tdiv_two_bounds (a : ℤ) : 2 * a.tdiv 2 ≤ a + 1 ∧ a - 1 ≤ 2 * a.tdiv 2 ∧
    (0 ≤ a → 2 * a.tdiv 2 ≤ a) ∧ (a ≤ 0 → a ≤ 2 * a.tdiv 2) := by
  rcases Int.le_total 0 a with h | h
  · rw [Int.tdiv_eq_ediv h (by decide)]
    omega
  · have h2 : a.tdiv 2 = -((-a).tdiv 2) := by
      rw [Int.neg_tdiv, neg_neg]
    rw [h2, Int.tdiv_eq_ediv (by omega) (by decide)]
    omega

/-- For a range within `[0, 2 ^ 30)` the sum does not overflow and the midpoint is the
floor of the half sum. -/
theorem mid_of_fits (x : ℤ × ℤ) (hx : 0 ≤ x.1 ∧ x.1 ≤ x.2 ∧ x.2 < 2 ^ 30) :
    (wrapInt (x.1 + x.2)).tdiv 2 = (x.1 + x.2) / 2 := by
  rw [wrapInt_of_fits _ (by omega) (by omega), Int.tdiv_eq_ediv (by omega) (by decide)]

theorem mid_mem_range (x : ℤ × ℤ) (hx : 0 ≤ x.1 ∧ x.1 ≤ x.2 ∧ x.2 < 2 ^ 30) :
    x.1 ≤ (wrapInt (x.1 + x.2)).tdiv 2 ∧ (wrapInt (x.1 + x.2)).tdiv 2 ≤ x.2 := by
  rw [mid_of_fits x hx]
  omega

/-! ### One pass of the subdivision loop -/

theorem loopBody_of_invalid {σ : Type} (v : DiscreteMotionValidator σ) (s1 s2 : σ) (nd : ℤ)
    (x : ℤ × ℤ) (rest : List (ℤ × ℤ))
    (hv : v.si_.isValid (probe v s1 s2 nd ((wrapInt (x.1 + x.2)).tdiv 2)) = false) :
    (loopBody v s1 s2 nd x rest).pos = none := by
  unfold probe at hv
  simp [loopBody, hv]

theorem loopBody_of_valid {σ : Type} (v : DiscreteMotionValidator σ) (s1 s2 : σ) (nd : ℤ)
    (x : ℤ × ℤ) (rest : List (ℤ × ℤ))
    (hv : v.si_.isValid (probe v s1 s2 nd ((wrapInt (x.1 + x.2)).tdiv 2)) = true) :
    (loopBody v s1 s2 nd x rest).pos = some (rest ++ pushed x) := by
  unfold probe at hv
  simp only [loopBody, hv, Bool.not_true, Bool.false_eq_true, if_false, Option.some.injEq,
    pushed]
  split <;> split <;> simp

theorem loopBody_trace {σ : Type} (v : DiscreteMotionValidator σ) (s1 s2 : σ) (nd : ℤ)
    (x : ℤ × ℤ) (rest : List (ℤ × ℤ)) :
    (loopBody v s1 s2 nd x rest).trace =
      probeEvents v s1 s2 nd [(wrapInt (x.1 + x.2)).tdiv 2] := by
  unfold loopBody probeEvents probe
  simp only
  split <;> rfl

theorem whileLoop_nil {σ : Type} (v : DiscreteMotionValidator σ) (s1 s2 : σ) (nd : ℤ)
    (fuel : ℕ) : whileLoop v s1 s2 nd fuel [] = some (true, []) := by
  cases fuel <;> rfl

theorem whileLoop_zero_cons {σ : Type} (v : DiscreteMotionValidator σ) (s1 s2 : σ) (nd : ℤ)
    (x : ℤ × ℤ) (rest : List (ℤ × ℤ)) : whileLoop v s1 s2 nd 0 (x :: rest) = none := rfl

theorem whileLoop_of_break {σ : Type} (v : DiscreteMotionValidator σ) (s1 s2 : σ) (nd : ℤ)
    (fuel : ℕ) (x : ℤ × ℤ) (rest : List (ℤ × ℤ))
    (h : (loopBody v s1 s2 nd x rest).pos = none) :
    whileLoop v s1 s2 nd (fuel + 1) (x :: rest) =
      some (false, (loopBody v s1 s2 nd x rest).trace) := by
  simp only [whileLoop, h]

theorem whileLoop_of_continue {σ : Type} (v : DiscreteMotionValidator σ) (s1 s2 : σ) (nd : ℤ)
    (fuel : ℕ) (x : ℤ × ℤ) (rest pos' : List (ℤ × ℤ))
    (h : (loopBody v s1 s2 nd x rest).pos = some pos') :
    whileLoop v s1 s2 nd (fuel + 1) (x :: rest) =
      match whileLoop v s1 s2 nd fuel pos' with
      | none => none
      | some r => some (r.1, (loopBody v s1 s2 nd x rest).trace ++ r.2) := by
  simp only [whileLoop, h]

/-- Whatever the queue, the events of a loop that ends are probes: pairs of an interpolation
into the scratch state and the admissibility test of the result. -/
theorem whileLoop_events {σ : Type} (v : DiscreteMotionValidator σ) (s1 s2 : σ) (nd : ℤ)
    (fuel : ℕ) (pos : List (ℤ × ℤ)) (r : Bool × List (Event σ))
    (h : whileLoop v s1 s2 nd fuel pos = some r) :
    ∃ ks : List ℤ, r.2 = probeEvents v s1 s2 nd ks := by
  induction fuel generalizing pos r with
  | zero =>
    cases pos with
    | nil =>
      rw [whileLoop_nil] at h
      cases h
      exact ⟨[], rfl⟩
    | cons x rest =>
      rw [whileLoop_zero_cons] at h
      exact Option.noConfusion h
  | succ fuel ih =>
    cases pos with
    | nil =>
      rw [whileLoop_nil] at h
      cases h
      exact ⟨[], rfl⟩
    | cons x rest =>
      cases hb : (loopBody v s1 s2 nd x rest).pos with
      | none =>
        rw [whileLoop_of_break v s1 s2 nd fuel x rest hb] at h
        cases h
        exact ⟨_, loopBody_trace v s1 s2 nd x rest⟩
      | some pos' =>
        rw [whileLoop_of_continue v s1 s2 nd fuel x rest pos' hb] at h
        cases hr : whileLoop v s1 s2 nd fuel pos' with
        | none =>
          rw [hr] at h
          exact Option.noConfusion h
        | some r' =>
          rw [hr] at h
          cases h
          obtain ⟨ks, hks⟩ := ih pos' r' hr
          refine ⟨(wrapInt (x.1 + x.2)).tdiv 2 :: ks, ?_⟩
          simp only
          rw [loopBody_trace, hks]
          rfl

/-! ### The shape of a subdivision run without overflow -/

theorem pushed_fits (x : ℤ × ℤ) (hx : 0 ≤ x.1 ∧ x.1 ≤ x.2 ∧ x.2 < 2 ^ 30) :
    ∀ y ∈ pushed x, 0 ≤ y.1 ∧ y.1 ≤ y.2 ∧ y.2 < 2 ^ 30 := by
  have hmid := mid_mem_range x hx
  intro y hy
  simp only [pushed, List.mem_append] at hy
  rcases hy with hy | hy
  · split at hy
    · simp only [List.mem_singleton] at hy
      subst hy
      simp only
      omega
    · simp at hy
  · split at hy
    · simp only [List.mem_singleton] at hy
      subst hy
      simp only
      omega
    · simp at hy

theorem queueIndices_pushed (x : ℤ × ℤ) :
    queueIndices (pushed x) =
      rangeIndices (x.1, (wrapInt (x.1 + x.2)).tdiv 2 - 1) ++
        rangeIndices ((wrapInt (x.1 + x.2)).tdiv 2 + 1, x.2) := by
  unfold pushed
  generalize (wrapInt (x.1 + x.2)).tdiv 2 = m
  split <;> split <;> rename_i h1 h2
  · simp [queueIndices]
  · have : (x.2 - (m + 1) + 1).toNat = 0 := by omega
    simp [queueIndices, rangeIndices, this, indices]
  · have : (m - 1 - x.1 + 1).toNat = 0 := by omega
    simp [queueIndices, rangeIndices, this, indices]
  · have h3 : (x.2 - (m + 1) + 1).toNat = 0 := by omega
    have h4 : (m - 1 - x.1 + 1).toNat = 0 := by omega
    simp [queueIndices, rangeIndices, h3, h4, indices]

/-- The indices of a range within `[0, 2 ^ 30)` are those of its left remainder, its midpoint
and those of its right remainder, in this order. -/
theorem rangeIndices_split (x : ℤ × ℤ) (hx : 0 ≤ x.1 ∧ x.1 ≤ x.2 ∧ x.2 < 2 ^ 30) :
    rangeIndices x =
      rangeIndices (x.1, (wrapInt (x.1 + x.2)).tdiv 2 - 1) ++
        (wrapInt (x.1 + x.2)).tdiv 2 ::
          rangeIndices ((wrapInt (x.1 + x.2)).tdiv 2 + 1, x.2) := by
  have hmid := mid_mem_range x hx
  generalize (wrapInt (x.1 + x.2)).tdiv 2 = m at hmid ⊢
  unfold rangeIndices
  simp only
  have hlen : (x.2 - x.1 + 1).toNat =
      (m - 1 - x.1 + 1).toNat + ((x.2 - (m + 1) + 1).toNat + 1) := by omega
  rw [hlen, indices_append]
  have hcast : x.1 + (((m - 1 - x.1 + 1).toNat : ℕ) : ℤ) = m := by
    rw [Int.toNat_of_nonneg (by omega)]
    ring
  rw [hcast]
  rfl

theorem queueIndices_step (x : ℤ × ℤ) (rest : List (ℤ × ℤ))
    (hx : 0 ≤ x.1 ∧ x.1 ≤ x.2 ∧ x.2 < 2 ^ 30) :
    ((wrapInt (x.1 + x.2)).tdiv 2 :: queueIndices (rest ++ pushed x)).Perm
      (queueIndices (x :: rest)) := by
  rw [queueIndices_append, queueIndices_pushed]
  simp only [queueIndices]
  rw [rangeIndices_split x hx]
  generalize rangeIndices (x.1, (wrapInt (x.1 + x.2)).tdiv 2 - 1) = l
  generalize rangeIndices ((wrapInt (x.1 + x.2)).tdiv 2 + 1, x.2) = r
  generalize queueIndices rest = q
  generalize (wrapInt (x.1 + x.2)).tdiv 2 = m
  refine (List.Perm.cons m List.perm_append_comm).trans ?_
  rw [List.append_assoc, List.append_assoc, List.cons_append]
  exact List.perm_middle.symm

theorem length_le_length_queueIndices (q : List (ℤ × ℤ)) (hq : ∀ y ∈ q, y.1 ≤ y.2) :
    q.length ≤ (queueIndices q).length := by
  induction q with
  | nil => simp [queueIndices]
  | cons x q ih =>
    have hx := hq x (List.mem_cons_self x q)
    have := ih (fun y hy => hq y (List.mem_cons_of_mem x hy))
    simp only [queueIndices, List.length_cons, List.length_append, rangeIndices, length_indices]
    omega

theorem indices_initial_eq (nd : ℤ) :
    queueIndices [((1 : ℤ), nd - 1)] = indices 1 (nd - 1).toNat := by
  rw [queueIndices_singleton, rangeIndices]
  simp only
  congr 1
  omega

theorem nodup_of_subperm {α : Type} {l₁ l₂ : List α} (h : l₁.Subperm l₂) (hn : l₂.Nodup) :
    l₁.Nodup := by
  obtain ⟨l, hp, hs⟩ := h
  exact hp.nodup_iff.mp (hn.sublist hs)

/-- On a queue of ranges within `[0, 2 ^ 30)` the loop ends within as many passes as the
queued ranges have indices.  It probes a sequence `ks` of these indices, none twice,
beginning with the midpoint of the front range; it succeeds exactly when all of them are
admissible, and `ks` then holds them all. -/
theorem whileLoop_trace {σ : Type} (v : DiscreteMotionValidator σ) (s1 s2 : σ) (nd : ℤ)
    (fuel : ℕ) (pos : List (ℤ × ℤ))
    (hpos : ∀ x ∈ pos, 0 ≤ x.1 ∧ x.1 ≤ x.2 ∧ x.2 < 2 ^ 30)
    (hfuel : (queueIndices pos).length ≤ fuel) :
    ∃ (b : Bool) (ks : List ℤ),
      whileLoop v s1 s2 nd fuel pos = some (b, probeEvents v s1 s2 nd ks) ∧
      ks.Subperm (queueIndices pos) ∧
      (b = true ↔ ∀ k ∈ queueIndices pos, v.si_.isValid (probe v s1 s2 nd k) = true) ∧
      (b = true → ks.Perm (queueIndices pos)) ∧
      ks.head? = pos.head?.map (fun x => (wrapInt (x.1 + x.2)).tdiv 2) := by
  induction fuel generalizing pos with
  | zero =>
    have hlen := length_le_length_queueIndices pos (fun y hy => (hpos y hy).2.1)
    have hnil : pos = [] := List.length_eq_zero.mp (by omega)
    subst hnil
    exact ⟨true, [], whileLoop_nil v s1 s2 nd 0, List.Subperm.refl _,
      by simp [queueIndices], fun _ => List.Perm.refl _, rfl⟩
  | succ fuel ih =>
    cases pos with
    | nil =>
      exact ⟨true, [], whileLoop_nil v s1 s2 nd _, List.Subperm.refl _,
        by simp [queueIndices], fun _ => List.Perm.refl _, rfl⟩
    | cons x rest =>
      have hx := hpos x (List.mem_cons_self x rest)
      have hstep := queueIndices_step x rest hx
      cases hv : v.si_.isValid (probe v s1 s2 nd ((wrapInt (x.1 + x.2)).tdiv 2)) with
      | false =>
        refine ⟨false, [(wrapInt (x.1 + x.2)).tdiv 2], ?_, ?_, ?_, ?_, rfl⟩
        · rw [whileLoop_of_break v s1 s2 nd fuel x rest
            (loopBody_of_invalid v s1 s2 nd x rest hv), loopBody_trace]
        · refine List.Subperm.trans ?_ hstep.subperm
          exact (List.singleton_sublist.mpr (List.mem_cons_self _ _)).subperm
        · constructor
          · intro h
            exact Bool.noConfusion h
          · intro hall
            have := hall _ (hstep.subset (List.mem_cons_self _ _))
            rw [hv] at this
            exact Bool.noConfusion this
        · intro h
          exact Bool.noConfusion h
      | true =>
        have hq := loopBody_of_valid v s1 s2 nd x rest hv
        have hne : ∀ y ∈ rest ++ pushed x, 0 ≤ y.1 ∧ y.1 ≤ y.2 ∧ y.2 < 2 ^ 30 := by
          intro y hy
          rcases List.mem_append.mp hy with hy | hy
          · exact hpos y (List.mem_cons_of_mem x hy)
          · exact pushed_fits x hx y hy
        have hlen := hstep.length_eq
        simp only [List.length_cons] at hlen
        obtain ⟨b, ks, htr, hsub, hiff, hperm, _⟩ := ih (rest ++ pushed x) hne (by omega)
        refine ⟨b, (wrapInt (x.1 + x.2)).tdiv 2 :: ks, ?_, ?_, ?_, ?_, rfl⟩
        · rw [whileLoop_of_continue v s1 s2 nd fuel x rest _ hq, htr, loopBody_trace]
          rfl
        · exact ((List.subperm_cons _).mpr hsub).trans hstep.subperm
        · rw [hiff]
          constructor
          · intro hall k hk
            rcases List.mem_cons.mp (hstep.symm.subset hk) with rfl | hk'
            · exact hv
            · exact hall k hk'
          · intro hall k hk
            exact hall k (hstep.subset (List.mem_cons_of_mem _ hk))
        · intro h
          exact ((hperm h).cons _).trans hstep

/-- The binary subdivision on an inadmissible `s2`. -/
theorem checkMotion_of_s2_invalid {σ : Type} (fuel : ℕ) (v : DiscreteMotionValidator σ)
    (s1 s2 : σ) (hB : v.si_.isValid s2 = false) :
    checkMotion fuel v s1 s2 = some (false, [Event.isValid s2]) := by
  simp only [checkMotion, hB, Bool.not_false, if_true]

/-- The binary subdivision on an admissible `s2` with a discretization count below `2`. -/
theorem checkMotion_of_short {σ : Type} (fuel : ℕ) (v : DiscreteMotionValidator σ)
    (s1 s2 : σ) (hB : v.si_.isValid s2 = true) (hnd : ¬ discretization v s1 s2 ≥ 2) :
    checkMotion fuel v s1 s2 = some (true, [Event.isValid s2]) := by
  simp only [checkMotion, hB, Bool.not_true, Bool.false_eq_true, if_false, hnd]

/-- The binary subdivision on an admissible `s2` with a discretization count of at least
`2`: the result is that of the loop on the full range, framed by the acquisition and the
release of the scratch state. -/
theorem checkMotion_of_long {σ : Type} (fuel : ℕ) (v : DiscreteMotionValidator σ)
    (s1 s2 : σ) (hB : v.si_.isValid s2 = true) (hnd : discretization v s1 s2 ≥ 2) :
    checkMotion fuel v s1 s2 =
      match whileLoop v s1 s2 (discretization v s1 s2) fuel [(1, discretization v s1 s2 - 1)] with
      | none => none
      | some r =>
        some (r.1, Event.isValid s2 :: Event.allocState :: (r.2 ++ [Event.freeState])) := by
  simp only [checkMotion, hB, Bool.not_true, Bool.false_eq_true, if_false, hnd, if_true]

/-- For `2 ≤ nd ≤ 2 ^ 30` and `s2` admissible, the binary subdivision returns within `nd - 1`
passes of its loop.  It probes a sequence `ks` of interior indices, none twice, beginning with
`floor(nd / 2)`; it returns true exactly when all interior indices are admissible, and `ks` is
then a rearrangement of `1, ..., nd - 1`. -/
theorem checkMotion_of_fits {σ : Type} (fuel : ℕ) (v : DiscreteMotionValidator σ) (s1 s2 : σ)
    (hB : v.si_.isValid s2 = true) (h2 : 2 ≤ discretization v s1 s2)
    (hle : discretization v s1 s2 ≤ 2 ^ 30) (hfuel : (discretization v s1 s2 - 1).toNat ≤ fuel) :
    ∃ (b : Bool) (ks : List ℤ),
      checkMotion fuel v s1 s2 = some (b, Event.isValid s2 :: Event.allocState ::
        (probeEvents v s1 s2 (discretization v s1 s2) ks ++ [Event.freeState])) ∧
      ks.Subperm (indices 1 (discretization v s1 s2 - 1).toNat) ∧
      (b = true ↔ ∀ j : ℤ, 1 ≤ j → j ≤ discretization v s1 s2 - 1 →
        v.si_.isValid (probe v s1 s2 (discretization v s1 s2) j) = true) ∧
      (b = true → ks.Perm (indices 1 (discretization v s1 s2 - 1).toNat)) ∧
      ks.head? = some (discretization v s1 s2 / 2) := by
  have hinit : ∀ x ∈ [((1 : ℤ), discretization v s1 s2 - 1)],
      0 ≤ x.1 ∧ x.1 ≤ x.2 ∧ x.2 < 2 ^ 30 := by
    intro x hx
    simp only [List.mem_singleton] at hx
    subst hx
    simp only
    omega
  have hq := indices_initial_eq (discretization v s1 s2)
  obtain ⟨b, ks, htr, hsub, hiff, hperm, hhead⟩ :=
    whileLoop_trace v s1 s2 (discretization v s1 s2) fuel _ hinit (by
      rw [hq, length_indices]
      exact hfuel)
  rw [hq] at hsub hiff hperm
  refine ⟨b, ks, ?_, hsub, ?_, hperm, ?_⟩
  · rw [checkMotion_of_long fuel v s1 s2 hB h2, htr]
  · rw [hiff]
    constructor
    · intro hall j h1 hj
      exact hall j ((mem_indices _ _ _).mpr (by omega))
    · intro hall k hk
      have := (mem_indices _ _ _).mp hk
      exact hall k this.1 (by omega)
  · rw [hhead]
    simp only [List.head?_cons, Option.map_some', Option.some.injEq]
    rw [mid_of_fits _ (hinit _ (List.mem_singleton_self _))]
    simp only
    congr 1
    omega

/-- For `nd ≤ 2 ^ 30` the binary subdivision returns within `nd - 1` passes of its loop; it
returns true exactly when `s2` and all interior probes are admissible, which is the boolean
of the linear scan. -/
theorem checkMotion_result_of_fits {σ : Type} (fuel : ℕ) (v : DiscreteMotionValidator σ)
    (s1 s2 : σ) (lastValid : Option σ × ℚ) (hle : discretization v s1 s2 ≤ 2 ^ 30)
    (hfuel : (discretization v s1 s2 - 1).toNat ≤ fuel) :
    ∃ r : Bool × List (Event σ), checkMotion fuel v s1 s2 = some r ∧
      (r.1 = true ↔ (v.si_.isValid s2 = true ∧
        ∀ j : ℤ, 1 ≤ j → j ≤ discretization v s1 s2 - 1 →
          v.si_.isValid (probe v s1 s2 (discretization v s1 s2) j) = true)) ∧
      r.1 = (checkMotionLastValid v s1 s2 lastValid).result := by
  have hiff : ∀ r : Bool × List (Event σ),
      (r.1 = true ↔ (v.si_.isValid s2 = true ∧
        ∀ j : ℤ, 1 ≤ j → j ≤ discretization v s1 s2 - 1 →
          v.si_.isValid (probe v s1 s2 (discretization v s1 s2) j) = true)) →
      r.1 = (checkMotionLastValid v s1 s2 lastValid).result := by
    intro r h
    rw [Bool.eq_iff_iff, h, linearScan_result_iff]
  cases hB : v.si_.isValid s2 with
  | false =>
    have h : (false = true ↔ (false = true ∧
        ∀ j : ℤ, 1 ≤ j → j ≤ discretization v s1 s2 - 1 →
          v.si_.isValid (probe v s1 s2 (discretization v s1 s2) j) = true)) := by simp
    refine ⟨_, checkMotion_of_s2_invalid fuel v s1 s2 hB, h, ?_⟩
    have := hiff (false, [Event.isValid s2])
    rw [hB] at this
    exact this h
  | true =>
    by_cases hnd : discretization v s1 s2 ≥ 2
    · obtain ⟨b, ks, h, _, hb, _⟩ := checkMotion_of_fits fuel v s1 s2 hB hnd hle hfuel
      have h' : (b = true ↔ (true = true ∧
          ∀ j : ℤ, 1 ≤ j → j ≤ discretization v s1 s2 - 1 →
            v.si_.isValid (probe v s1 s2 (discretization v s1 s2) j) = true)) := by
        rw [hb]; simp
      refine ⟨_, h, h', ?_⟩
      have := hiff (b, Event.isValid s2 :: Event.allocState ::
        (probeEvents v s1 s2 (discretization v s1 s2) ks ++ [Event.freeState]))
      rw [hB] at this
      exact this h'
    · have h' : (true = true ↔ (true = true ∧
          ∀ j : ℤ, 1 ≤ j → j ≤ discretization v s1 s2 - 1 →
            v.si_.isValid (probe v s1 s2 (discretization v s1 s2) j) = true)) := by
        simp only [true_and, true_iff]
        intro j h1 h2
        omega
      refine ⟨_, checkMotion_of_short fuel v s1 s2 hB hnd, h', ?_⟩
      have := hiff (true, [Event.isValid s2])
      rw [hB] at this
      exact this h'

/-- Whatever the discretization count, a binary subdivision that returns has performed the
test on `s2` alone, or that test, the acquisition of the scratch state, probes, and the
release of the scratch state. -/
theorem checkMotion_shape {σ : Type} (fuel : ℕ) (v : DiscreteMotionValidator σ) (s1 s2 : σ)
    (r : Bool × List (Event σ)) (h : checkMotion fuel v s1 s2 = some r) :
    ((v.si_.isValid s2 = false ∨ ¬ discretization v s1 s2 ≥ 2) ∧ r.2 = [Event.isValid s2]) ∨
    (v.si_.isValid s2 = true ∧ discretization v s1 s2 ≥ 2 ∧
      ∃ ks : List ℤ, r.2 = Event.isValid s2 :: Event.allocState ::
        (probeEvents v s1 s2 (discretization v s1 s2) ks ++ [Event.freeState])) := by
  cases hB : v.si_.isValid s2 with
  | false =>
    rw [checkMotion_of_s2_invalid fuel v s1 s2 hB] at h
    cases h
    exact Or.inl ⟨Or.inl rfl, rfl⟩
  | true =>
    by_cases hnd : discretization v s1 s2 ≥ 2
    · rw [checkMotion_of_long fuel v s1 s2 hB hnd] at h
      cases hr : whileLoop v s1 s2 (discretization v s1 s2) fuel
          [(1, discretization v s1 s2 - 1)] with
      | none =>
        rw [hr] at h
        exact Option.noConfusion h
      | some r' =>
        rw [hr] at h
        cases h
        obtain ⟨ks, hks⟩ := whileLoop_events v s1 s2 _ fuel _ r' hr
        exact Or.inr ⟨rfl, hnd, ks, by rw [hks]⟩
    · rw [checkMotion_of_short fuel v s1 s2 hB hnd] at h
      cases h
      exact Or.inl ⟨Or.inr hnd, rfl⟩

/-! ### The line scenario -/

theorem line_probe (j : ℤ) : probe (lineValidator (1 / 20)) 0 10 20 j = (j : ℚ) / 2 := by
  simp only [probe, lineValidator, lineManifold]
  push_cast
  ring

theorem line_probe_eight :
    (lineValidator (1 / 20)).si_.isValid (probe (lineValidator (1 / 20)) 0 10 20 8) = false := by
  rw [line_probe]
  norm_num [lineValidator, lineSpace]

theorem line_probe_before_eight (k : ℤ) (h1 : 1 ≤ k) (h8 : k < 8) :
    (lineValidator (1 / 20)).si_.isValid (probe (lineValidator (1 / 20)) 0 10 20 k) = true := by
  rw [line_probe]
  have hk : k = 1 ∨ k = 2 ∨ k = 3 ∨ k = 4 ∨ k = 5 ∨ k = 6 ∨ k = 7 := by omega
  rcases hk with rfl | rfl | rfl | rfl | rfl | rfl | rfl <;>
    norm_num [lineValidator, lineSpace]

/-! ### Repeated calls of the setter -/

theorem setResolutions_of_outOfRange {σ : Type} (v : DiscreteMotionValidator σ)
    (h : outOfRange v.resolution_ = true) (xs : List ℚ) : setResolutions v xs = v := by
  induction xs with
  | nil => rfl
  | cons x xs ih =>
    simp only [setResolutions, setStateValidityCheckingResolution, h, if_true]
    exact ih

theorem outOfRange_iff (x : ℚ) : outOfRange x = true ↔ (x < epsilon ∨ x > 1 - epsilon) := by
  simp [outOfRange]

/-! ### Stores of the linear scan -/

theorem storeSecond_not_mem_probeEvents {σ : Type} (v : DiscreteMotionValidator σ) (s1 s2 : σ)
    (nd : ℤ) (ks : List ℤ) (f : ℚ) : Event.storeSecond f ∉ probeEvents v s1 s2 nd ks := by
  intro h
  obtain ⟨k, _, hk | hk⟩ := (mem_probeEvents v s1 s2 nd ks _).mp h
  · exact Event.noConfusion hk
  · exact Event.noConfusion hk

/-- A store of `f` by the linear scan started at `j0` happens at the first inadmissible index
`j` at or after `j0`, with `f = (j - 1) / nd`. -/
theorem forLoop_of_store_mem {σ : Type} (v : DiscreteMotionValidator σ) (s1 s2 : σ) (nd : ℤ)
    (lastValid : Option σ × ℚ) (j0 : ℤ) (f : ℚ)
    (h : Event.storeSecond f ∈ (forLoop v s1 s2 nd lastValid j0).trace) :
    ∃ j : ℤ, j0 ≤ j ∧ j < nd ∧ f = ((j - 1 : ℤ) : ℚ) / (nd : ℚ) ∧
      v.si_.isValid (probe v s1 s2 nd j) = false ∧
      (∀ k : ℤ, j0 ≤ k → k < j → v.si_.isValid (probe v s1 s2 nd k) = true) ∧
      (forLoop v s1 s2 nd lastValid j0).result = false ∧
      (forLoop v s1 s2 nd lastValid j0).lastValid =
        (lastValid.1.map fun _ => v.stateManifold_.interpolate s1 s2 f, f) := by
  rcases forLoop_cases v s1 s2 nd lastValid j0 with
    ⟨_, heq⟩ | ⟨j, hj0, hjnd, hjv, hbefore, heq⟩
  · rw [heq] at h
    exact absurd h (storeSecond_not_mem_probeEvents v s1 s2 nd _ f)
  · rw [heq] at h ⊢
    simp only [List.mem_append, List.mem_map, List.mem_singleton] at h
    rcases h with h | ⟨_, _, h⟩ | h
    · exact absurd h (storeSecond_not_mem_probeEvents v s1 s2 nd _ f)
    · exact Event.noConfusion h
    · have hf : f = ((j - 1 : ℤ) : ℚ) / (nd : ℚ) := Event.storeSecond.inj h
      subst hf
      exact ⟨j, hj0, hjnd, rfl, hjv, hbefore, rfl, rfl⟩

theorem storeSecond_mem_linearScan {σ : Type} (v : DiscreteMotionValidator σ) (s1 s2 : σ)
    (lastValid : Option σ × ℚ) (f : ℚ)
    (h : Event.storeSecond f ∈ (checkMotionLastValid v s1 s2 lastValid).trace) :
    v.si_.isValid s2 = true ∧
      Event.storeSecond f ∈ (forLoop v s1 s2 (discretization v s1 s2) lastValid 1).trace := by
  cases hB : v.si_.isValid s2 with
  | false =>
    rw [checkMotionLastValid_of_s2_invalid v s1 s2 lastValid hB] at h
    simp at h
  | true =>
    refine ⟨rfl, ?_⟩
    unfold checkMotionLastValid at h
    simp only [hB, Bool.not_true, Bool.false_eq_true, if_false, List.mem_cons, List.mem_append,
      List.mem_singleton, List.not_mem_nil, or_false] at h
    rcases h with h | h | h | h
    · exact Event.noConfusion h
    · exact Event.noConfusion h
    · exact h
    · exact Event.noConfusion h

theorem intCast_div_injective (nd a b : ℤ) (hnd : 0 < nd)
    (h : (a : ℚ) / (nd : ℚ) = (b : ℚ) / (nd : ℚ)) : a = b := by
  have hne : (nd : ℚ) ≠ 0 := by
    have : (0 : ℚ) < (nd : ℚ) := by exact_mod_cast hnd
    exact ne_of_gt this
  have := (div_left_inj' hne).mp h
  exact_mod_cast this

/-! ### Interpolation parameters -/

theorem probe_parameter_bounds (nd k : ℤ) (h1 : 1 ≤ k) (h2 : k ≤ nd - 1) :
    (0 : ℚ) < (k : ℚ) / (nd : ℚ) ∧ (k : ℚ) / (nd : ℚ) < 1 := by
  have hnd : (0 : ℚ) < (nd : ℚ) := by
    have : (0 : ℤ) < nd := by omega
    exact_mod_cast this
  have hk : (0 : ℚ) < (k : ℚ) := by
    have : (0 : ℤ) < k := by omega
    exact_mod_cast this
  have hlt : (k : ℚ) < (nd : ℚ) := by
    have : k < nd := by omega
    exact_mod_cast this
  exact ⟨div_pos hk hnd, (div_lt_one hnd).mpr hlt⟩

theorem lastValid_parameter_bounds (nd j : ℤ) (h1 : 1 ≤ j) (h2 : j ≤ nd - 1) :
    (0 : ℚ) ≤ ((j - 1 : ℤ) : ℚ) / (nd : ℚ) ∧ ((j - 1 : ℤ) : ℚ) / (nd : ℚ) < 1 := by
  have hnd : (0 : ℚ) < (nd : ℚ) := by
    have : (0 : ℤ) < nd := by omega
    exact_mod_cast this
  have hk : (0 : ℚ) ≤ ((j - 1 : ℤ) : ℚ) := by
    have : (0 : ℤ) ≤ j - 1 := by omega
    exact_mod_cast this
  have hlt : ((j - 1 : ℤ) : ℚ) < (nd : ℚ) := by
    have : j - 1 < nd := by omega
    exact_mod_cast this
  exact ⟨div_nonneg hk (le_of_lt hnd), (div_lt_one hnd).mpr hlt⟩

theorem interpolate_mem_probeEvents {σ : Type} (v : DiscreteMotionValidator σ) (s1 s2 : σ)
    (nd : ℤ) (ks : List ℤ) (t : ℚ) (d : Dest)
    (h : Event.interpolate t d ∈ probeEvents v s1 s2 nd ks) :
    d = Dest.test ∧ ∃ k ∈ ks, t = (k : ℚ) / (nd : ℚ) := by
  obtain ⟨k, hk, he | he⟩ := (mem_probeEvents v s1 s2 nd ks _).mp h
  · have := Event.interpolate.inj he
    exact ⟨this.2, k, hk, this.1⟩
  · exact Event.noConfusion he

/-- Every interpolation of the linear scan started at `j0` is a probe at `k / nd` or the
last-valid interpolation at `(k - 1) / nd`, for an index `k` with `j0 ≤ k < nd`. -/
theorem interpolate_mem_forLoop {σ : Type} (v : DiscreteMotionValidator σ) (s1 s2 : σ)
    (nd : ℤ) (lastValid : Option σ × ℚ) (j0 : ℤ) (t : ℚ) (d : Dest)
    (h : Event.interpolate t d ∈ (forLoop v s1 s2 nd lastValid j0).trace) :
    ∃ k : ℤ, j0 ≤ k ∧ k < nd ∧
      ((d = Dest.test ∧ t = (k : ℚ) / (nd : ℚ)) ∨
        (d = Dest.lastValidFirst ∧ t = ((k - 1 : ℤ) : ℚ) / (nd : ℚ))) := by
  rcases forLoop_cases v s1 s2 nd lastValid j0 with
    ⟨_, heq⟩ | ⟨j, hj0, hjnd, _, _, heq⟩
  · rw [heq] at h
    obtain ⟨hd, k, hk, ht⟩ := interpolate_mem_probeEvents v s1 s2 nd _ t d h
    have := (mem_indices _ _ _).mp hk
    exact ⟨k, this.1, by omega, Or.inl ⟨hd, ht⟩⟩
  · rw [heq] at h
    simp only [List.mem_append, List.mem_map, List.mem_singleton] at h
    rcases h with h | ⟨_, _, h⟩ | h
    · obtain ⟨hd, k, hk, ht⟩ := interpolate_mem_probeEvents v s1 s2 nd _ t d h
      have := (mem_indices _ _ _).mp hk
      exact ⟨k, this.1, by omega, Or.inl ⟨hd, ht⟩⟩
    · have := Event.interpolate.inj h
      exact ⟨j, hj0, hjnd, Or.inr ⟨this.2.symm, this.1.symm⟩⟩
    · exact Event.noConfusion h

theorem checkMotionLastValid_of_s2_valid {σ : Type} (v : DiscreteMotionValidator σ)
    (s1 s2 : σ) (lastValid : Option σ × ℚ) (hB : v.si_.isValid s2 = true) :
    checkMotionLastValid v s1 s2 lastValid =
      { result := (forLoop v s1 s2 (discretization v s1 s2) lastValid 1).result
        lastValid := (forLoop v s1 s2 (discretization v s1 s2) lastValid 1).lastValid
        trace := Event.isValid s2 :: Event.allocState ::
          ((forLoop v s1 s2 (discretization v s1 s2) lastValid 1).trace ++
            [Event.freeState]) } := by
  simp only [checkMotionLastValid, hB, Bool.not_true, Bool.false_eq_true, if_false]

/-! ### A run in which the sum overflows

The motion from `0` to `15/2` on the interval `[0, 10]` at resolution `2 ^ (-31)`: the distance
fraction is `3/4` and the discretization count is `3 * 2 ^ 29 = 1610612736`, which fits an
`int`.  The third pass of the subdivision loop has the front range
`(805306369, 1610612735)`, whose sum exceeds `2 ^ 31 - 1`. -/

theorem discretization_bounded_overflow :
    discretization (boundedValidator (1 / 2 ^ 31)) 0 (15 / 2) = 1610612736 := by
  have h : lineManifold.distanceAsFraction 0 (15 / 2) / (1 / 2 ^ 31) =
      (((1610612736 : ℤ) : ℤ) : ℚ) := by
    norm_num [lineManifold, abs_of_nonneg]
  simp only [discretization, boundedValidator]
  rw [h, Int.ceil_intCast]

theorem discretization_free_overflow :
    discretization (freeValidator (1 / 2 ^ 31)) 0 (15 / 2) = 1610612736 := by
  have h : lineManifold.distanceAsFraction 0 (15 / 2) / (1 / 2 ^ 31) =
      (((1610612736 : ℤ) : ℤ) : ℚ) := by
    norm_num [lineManifold, abs_of_nonneg]
  simp only [discretization, freeValidator]
  rw [h, Int.ceil_intCast]

theorem bounded_probe (nd j : ℤ) :
    probe (boundedValidator (1 / 2 ^ 31)) 0 (15 / 2) nd j = 15 / 2 * ((j : ℚ) / (nd : ℚ)) := by
  simp only [probe, boundedValidator, lineManifold]
  ring

/-- Every interior probe of the overflow scenario lies in the interval and is admissible. -/
theorem bounded_probe_valid (nd j : ℤ) (h1 : 1 ≤ j) (h2 : j ≤ nd - 1) :
    (boundedValidator (1 / 2 ^ 31)).si_.isValid
      (probe (boundedValidator (1 / 2 ^ 31)) 0 (15 / 2) nd j) = true := by
  have hb := probe_parameter_bounds nd j h1 h2
  rw [bounded_probe]
  simp only [boundedValidator, boundedSpace, Bool.and_eq_true, decide_eq_true_eq]
  constructor
  · nlinarith [hb.1]
  · nlinarith [hb.2]

/-- The subdivision loop of the overflow scenario: two admissible probes, at the indices
`805306368` and `402653184`, then a probe at the index `-939524096`, outside the interval,
where the loop breaks. -/
theorem whileLoop_bounded_overflow (fuel : ℕ) :
    whileLoop (boundedValidator (1 / 2 ^ 31)) 0 (15 / 2) 1610612736 (fuel + 3)
        [(1, 1610612735)] =
      some (false, probeEvents (boundedValidator (1 / 2 ^ 31)) 0 (15 / 2) 1610612736
        [805306368, 402653184, -939524096]) := by
  have hm1 : (wrapInt ((1 : ℤ) + 1610612735)).tdiv 2 = 805306368 := by decide
  have hm2 : (wrapInt ((1 : ℤ) + 805306367)).tdiv 2 = 402653184 := by decide
  have hm3 : (wrapInt ((805306369 : ℤ) + 1610612735)).tdiv 2 = -939524096 := by decide
  have hp1 : pushed ((1 : ℤ), (1610612735 : ℤ)) =
      [(1, 805306367), (805306369, 1610612735)] := by decide
  have hp2 : pushed ((1 : ℤ), (805306367 : ℤ)) =
      [(1, 402653183), (402653185, 805306367)] := by decide
  have hv1 : (boundedValidator (1 / 2 ^ 31)).si_.isValid
      (probe (boundedValidator (1 / 2 ^ 31)) 0 (15 / 2) 1610612736
        ((wrapInt ((1 : ℤ) + 1610612735)).tdiv 2)) = true := by
    rw [hm1]
    exact bounded_probe_valid _ _ (by decide) (by decide)
  have hv2 : (boundedValidator (1 / 2 ^ 31)).si_.isValid
      (probe (boundedValidator (1 / 2 ^ 31)) 0 (15 / 2) 1610612736
        ((wrapInt ((1 : ℤ) + 805306367)).tdiv 2)) = true := by
    rw [hm2]
    exact bounded_probe_valid _ _ (by decide) (by decide)
  have hv3 : (boundedValidator (1 / 2 ^ 31)).si_.isValid
      (probe (boundedValidator (1 / 2 ^ 31)) 0 (15 / 2) 1610612736
        ((wrapInt ((805306369 : ℤ) + 1610612735)).tdiv 2)) = false := by
    rw [hm3, bounded_probe]
    norm_num [boundedValidator, boundedSpace]
  rw [whileLoop_of_continue _ 0 (15 / 2) 1610612736 (fuel + 2) (1, 1610612735) [] _
    (loopBody_of_valid _ 0 (15 / 2) 1610612736 (1, 1610612735) [] hv1)]
  rw [hp1, List.nil_append]
  rw [whileLoop_of_continue _ 0 (15 / 2) 1610612736 (fuel + 1) (1, 805306367)
    [(805306369, 1610612735)] _
    (loopBody_of_valid _ 0 (15 / 2) 1610612736 (1, 805306367) [(805306369, 1610612735)] hv2)]
  rw [hp2, List.singleton_append]
  rw [whileLoop_of_break _ 0 (15 / 2) 1610612736 fuel (805306369, 1610612735)
    [(1, 402653183), (402653185, 805306367)]
    (loopBody_of_invalid _ 0 (15 / 2) 1610612736 (805306369, 1610612735) _ hv3)]
  simp only [loopBody_trace]
  rw [show ((1 : ℤ), (1610612735 : ℤ)).1 + ((1 : ℤ), (1610612735 : ℤ)).2 =
    (1 : ℤ) + 1610612735 from rfl, hm1]
  rw [show ((1 : ℤ), (805306367 : ℤ)).1 + ((1 : ℤ), (805306367 : ℤ)).2 =
    (1 : ℤ) + 805306367 from rfl, hm2]
  rw [show ((805306369 : ℤ), (1610612735 : ℤ)).1 + ((805306369 : ℤ), (1610612735 : ℤ)).2 =
    (805306369 : ℤ) + 1610612735 from rfl, hm3]
  rfl

/-- The binary subdivision of the overflow scenario returns false after three probes, the
third at the index `-939524096`. -/
theorem checkMotion_bounded_overflow (fuel : ℕ) :
    checkMotion (fuel + 3) (boundedValidator (1 / 2 ^ 31)) 0 (15 / 2) =
      some (false, Event.isValid (15 / 2) :: Event.allocState ::
        (probeEvents (boundedValidator (1 / 2 ^ 31)) 0 (15 / 2) 1610612736
          [805306368, 402653184, -939524096] ++ [Event.freeState])) := by
  have hB : (boundedValidator (1 / 2 ^ 31)).si_.isValid (15 / 2) = true := by
    norm_num [boundedValidator, boundedSpace]
  rw [checkMotion_of_long _ _ _ _ hB (by rw [discretization_bounded_overflow]; decide),
    discretization_bounded_overflow]
  rw [show ((1610612736 : ℤ) - 1) = 1610612735 from by norm_num, whileLoop_bounded_overflow]

/-- When every state is admissible and the queue holds a range that ends at an index `hi`
with `2 ^ 30 ≤ hi < 2 ^ 31`, the loop does not end: the pass on such a range pushes a range
that ends at `hi` again, because the right remainder of a range `(lo, hi)` is non-empty
unless `lo = hi`, and the sum `hi + hi` overflows to a negative midpoint. -/
theorem whileLoop_never_ends {σ : Type} (v : DiscreteMotionValidator σ) (s1 s2 : σ) (nd : ℤ)
    (hfree : ∀ s : σ, v.si_.isValid s = true) (hi : ℤ) (h1 : 2 ^ 30 ≤ hi) (h2 : hi < 2 ^ 31)
    (fuel : ℕ) (pos : List (ℤ × ℤ))
    (hpos : ∃ x ∈ pos, x.2 = hi ∧ -2 ^ 31 ≤ x.1 ∧ x.1 ≤ hi) :
    whileLoop v s1 s2 nd fuel pos = none := by
  induction fuel generalizing pos with
  | zero =>
    cases pos with
    | nil =>
      obtain ⟨x, hx, _⟩ := hpos
      exact absurd hx (List.not_mem_nil x)
    | cons y rest => rfl
  | succ fuel ih =>
    cases pos with
    | nil =>
      obtain ⟨x, hx, _⟩ := hpos
      exact absurd hx (List.not_mem_nil x)
    | cons y rest =>
      rw [whileLoop_of_continue v s1 s2 nd fuel y rest _
        (loopBody_of_valid v s1 s2 nd y rest (hfree _))]
      have hnext : ∃ x ∈ rest ++ pushed y, x.2 = hi ∧ -2 ^ 31 ≤ x.1 ∧ x.1 ≤ hi := by
        obtain ⟨x, hx, hx2, hx1, hxle⟩ := hpos
        rcases List.mem_cons.mp hx with rfl | hx
        · have hw := wrapInt_bounds (x.1 + x.2)
          have ht := tdiv_two_bounds (wrapInt (x.1 + x.2))
          have hm : (wrapInt (x.1 + x.2)).tdiv 2 < x.2 := by
            unfold wrapInt at hw ht ⊢
            omega
          refine ⟨((wrapInt (x.1 + x.2)).tdiv 2 + 1, x.2), ?_, hx2, ?_, ?_⟩
          · apply List.mem_append_right
            unfold pushed
            apply List.mem_append_right
            rw [if_pos hm]
            exact List.mem_singleton_self _
          · simp only
            omega
          · simp only
            omega
        · exact ⟨x, List.mem_append_left _ hx, hx2, hx1, hxle⟩
      rw [ih _ hnext]

/-- On the line without bounds the binary subdivision of the motion from `0` to `15/2` at
resolution `2 ^ (-31)`, with discretization count `1610612736`, does not return, however many
passes its loop is allowed. -/
theorem checkMotion_free_overflow (fuel : ℕ) :
    checkMotion fuel (freeValidator (1 / 2 ^ 31)) 0 (15 / 2) = none := by
  rw [checkMotion_of_long _ _ _ _ rfl (by rw [discretization_free_overflow]; decide),
    discretization_free_overflow]
  rw [whileLoop_never_ends _ 0 (15 / 2) 1610612736 (fun _ => rfl) 1610612735 (by decide)
    (by decide) fuel _ ⟨(1, 1610612736 - 1), List.mem_singleton_self _, by decide, by decide,
      by decide⟩]

/-! ## The claims -/

/-- C3: the linear-scan `checkMotion(s1, s2, lastValid)` returns true if and only if `s2` is
admissible and every interior probe index `j` with `1 ≤ j ≤ nd - 1` is admissible. -/
theorem checkMotionLastValid_exact {σ : Type} (v : DiscreteMotionValidator σ) (s1 s2 : σ)
    (lastValid : Option σ × ℚ) :
    (checkMotionLastValid v s1 s2 lastValid).result = true ↔
      (v.si_.isValid s2 = true ∧ ∀ j : ℤ, 1 ≤ j → j ≤ discretization v s1 s2 - 1 →
        v.si_.isValid (v.stateManifold_.interpolate s1 s2
          ((j : ℚ) / (discretization v s1 s2 : ℚ))) = true) :=
  linearScan_result_iff v s1 s2 lastValid

/-- C5: when `s2` is admissible and `j` is the smallest inadmissible interior index, the
linear scan returns false and leaves `lastValid.second` equal to `f = (j - 1) / nd`, having
stored it; `0 ≤ f < 1`; and the state `lastValid.first` points to, if one was supplied, is
`interpolate(s1, s2, f)`, written by an `interpolate` call with that parameter. -/
theorem checkMotionLastValid_report {σ : Type} (v : DiscreteMotionValidator σ) (s1 s2 : σ)
    (lastValid : Option σ × ℚ) (j : ℤ) (hB : v.si_.isValid s2 = true)
    (h1 : 1 ≤ j) (hnd : j ≤ discretization v s1 s2 - 1)
    (hj : v.si_.isValid (v.stateManifold_.interpolate s1 s2
      ((j : ℚ) / (discretization v s1 s2 : ℚ))) = false)
    (hmin : ∀ k : ℤ, 1 ≤ k → k < j → v.si_.isValid (v.stateManifold_.interpolate s1 s2
      ((k : ℚ) / (discretization v s1 s2 : ℚ))) = true) :
    (checkMotionLastValid v s1 s2 lastValid).result = false ∧
    (checkMotionLastValid v s1 s2 lastValid).lastValid.2 =
      ((j - 1 : ℤ) : ℚ) / (discretization v s1 s2 : ℚ) ∧
    Event.storeSecond (((j - 1 : ℤ) : ℚ) / (discretization v s1 s2 : ℚ)) ∈
      (checkMotionLastValid v s1 s2 lastValid).trace ∧
    0 ≤ ((j - 1 : ℤ) : ℚ) / (discretization v s1 s2 : ℚ) ∧
    ((j - 1 : ℤ) : ℚ) / (discretization v s1 s2 : ℚ) < 1 ∧
    (checkMotionLastValid v s1 s2 lastValid).lastValid.1 =
      lastValid.1.map (fun _ => v.stateManifold_.interpolate s1 s2
        (((j - 1 : ℤ) : ℚ) / (discretization v s1 s2 : ℚ))) ∧
    (lastValid.1.isSome = true →
      Event.interpolate (((j - 1 : ℤ) : ℚ) / (discretization v s1 s2 : ℚ)) Dest.lastValidFirst ∈
        (checkMotionLastValid v s1 s2 lastValid).trace) := by
  have hlt : j < discretization v s1 s2 := by omega
  have hres := forLoop_first_invalid v s1 s2 (discretization v s1 s2) lastValid 1 j h1 hlt hj hmin
  have htr := forLoop_first_invalid_trace v s1 s2 (discretization v s1 s2) lastValid 1 j h1 hlt
    hj hmin
  have hpos : (0 : ℚ) < (discretization v s1 s2 : ℚ) := by
    have : (0 : ℤ) < discretization v s1 s2 := by omega
    exact_mod_cast this
  have hj0 : (0 : ℚ) ≤ ((j - 1 : ℤ) : ℚ) := by
    have : (0 : ℤ) ≤ j - 1 := by omega
    exact_mod_cast this
  have hjlt : ((j - 1 : ℤ) : ℚ) < (discretization v s1 s2 : ℚ) := by
    have : j - 1 < discretization v s1 s2 := by omega
    exact_mod_cast this
  unfold checkMotionLastValid
  simp only [hB, Bool.not_true, Bool.false_eq_true, if_false]
  refine ⟨hres.1, ?_, ?_, div_nonneg hj0 (le_of_lt hpos), (div_lt_one hpos).mpr hjlt, ?_, ?_⟩
  · rw [hres.2]
  · exact List.mem_cons_of_mem _ (List.mem_cons_of_mem _ (List.mem_append_left _ htr.1))
  · rw [hres.2]
  · intro hs
    exact List.mem_cons_of_mem _ (List.mem_cons_of_mem _ (List.mem_append_left _ (htr.2 hs)))

/-- Witness of C5: the line scenario from `0` to `10` at resolution `1/20`, where index `8`
is the first inadmissible one and a last-valid state is supplied. -/
theorem checkMotionLastValid_report_witness :
    (lineValidator (1 / 20)).si_.isValid 10 = true ∧ (1 : ℤ) ≤ 8 ∧
    (8 : ℤ) ≤ discretization (lineValidator (1 / 20)) 0 10 - 1 ∧
    (lineValidator (1 / 20)).si_.isValid ((lineValidator (1 / 20)).stateManifold_.interpolate 0 10
      (((8 : ℤ) : ℚ) / (discretization (lineValidator (1 / 20)) 0 10 : ℚ))) = false ∧
    (∀ k : ℤ, 1 ≤ k → k < 8 →
      (lineValidator (1 / 20)).si_.isValid ((lineValidator (1 / 20)).stateManifold_.interpolate
        0 10 ((k : ℚ) / (discretization (lineValidator (1 / 20)) 0 10 : ℚ))) = true) ∧
    (checkMotionLastValid (lineValidator (1 / 20)) 0 10 (some 0, 0)).result = false ∧
    (checkMotionLastValid (lineValidator (1 / 20)) 0 10 (some 0, 0)).lastValid.2 =
      (((8 : ℤ) - 1 : ℤ) : ℚ) / (discretization (lineValidator (1 / 20)) 0 10 : ℚ) ∧
    (checkMotionLastValid (lineValidator (1 / 20)) 0 10 (some 0, 0)).lastValid.1 =
      some ((lineValidator (1 / 20)).stateManifold_.interpolate 0 10
        ((((8 : ℤ) - 1 : ℤ) : ℚ) / (discretization (lineValidator (1 / 20)) 0 10 : ℚ))) := by
  have hnd : discretization (lineValidator (1 / 20)) 0 10 = 20 := by
    norm_num [discretization, lineValidator, lineManifold]
  have hB : (lineValidator (1 / 20)).si_.isValid 10 = true := by decide
  have h8 : (8 : ℤ) ≤ discretization (lineValidator (1 / 20)) 0 10 - 1 := by
    rw [hnd]; decide
  have hj : (lineValidator (1 / 20)).si_.isValid
      ((lineValidator (1 / 20)).stateManifold_.interpolate 0 10
        (((8 : ℤ) : ℚ) / (discretization (lineValidator (1 / 20)) 0 10 : ℚ))) = false := by
    rw [hnd]; norm_num [lineValidator, lineManifold, lineSpace]
  have hmin : ∀ k : ℤ, 1 ≤ k → k < 8 →
      (lineValidator (1 / 20)).si_.isValid ((lineValidator (1 / 20)).stateManifold_.interpolate
        0 10 ((k : ℚ) / (discretization (lineValidator (1 / 20)) 0 10 : ℚ))) = true := by
    intro k hk1 hk8
    rw [hnd]
    have hk : k = 1 ∨ k = 2 ∨ k = 3 ∨ k = 4 ∨ k = 5 ∨ k = 6 ∨ k = 7 := by omega
    rcases hk with rfl | rfl | rfl | rfl | rfl | rfl | rfl <;>
      norm_num [lineValidator, lineManifold, lineSpace]
  have h := checkMotionLastValid_report (lineValidator (1 / 20)) 0 10 (some 0, 0) 8 hB
    (by decide) h8 hj hmin
  exact ⟨hB, by decide, h8, hj, hmin, h.1, h.2.1, h.2.2.2.2.2.1⟩

/-- C7 fails on the code: after the default settings the call with `5` is accepted and stores
`5`; from then on the supplied value `1/2`, which is strictly inside
`(epsilon, 1 - epsilon)`, raises the configuration error and the stored resolution stays
`5`. -/
theorem setStateValidityCheckingResolution_refuses_good_value :
    (setStateValidityCheckingResolution (defaultSettings (lineValidator 0)) 5).1 = none ∧
    (setStateValidityCheckingResolution (defaultSettings (lineValidator 0)) 5).2 =
      lineValidator 5 ∧
    epsilon < 1 / 2 ∧ (1 / 2 : ℚ) < 1 - epsilon ∧
    (setStateValidityCheckingResolution (lineValidator 5) (1 / 2)).1 =
      some Exception.resolutionOutOfRange ∧
    (setStateValidityCheckingResolution (lineValidator 5) (1 / 2)).2.resolution_ = 5 := by
  refine ⟨?_, ?_, ?_, ?_, ?_, ?_⟩
  · norm_num [setStateValidityCheckingResolution, defaultSettings, outOfRange, epsilon]
  · norm_num [setStateValidityCheckingResolution, defaultSettings, outOfRange, epsilon,
      lineValidator, lineSpace]
  · norm_num [epsilon]
  · norm_num [epsilon]
  · norm_num [setStateValidityCheckingResolution, lineValidator, outOfRange, epsilon]
  · norm_num [setStateValidityCheckingResolution, lineValidator, outOfRange, epsilon]

theorem epsilon_pos : 0 < epsilon := by
  norm_num [epsilon]

/-- C8: for a non-negative normalized distance and a resolution strictly inside
`(epsilon, 1 - epsilon)`, the discretization count `ceil(distance / resolution)` is
non-negative, and it is zero exactly when the distance is zero. -/
theorem discretization_nonneg_zero_iff {σ : Type} (v : DiscreteMotionValidator σ) (s1 s2 : σ)
    (hd : 0 ≤ v.stateManifold_.distanceAsFraction s1 s2)
    (hlo : epsilon < v.resolution_) (_hhi : v.resolution_ < 1 - epsilon) :
    0 ≤ discretization v s1 s2 ∧
      (discretization v s1 s2 = 0 ↔ v.stateManifold_.distanceAsFraction s1 s2 = 0) := by
  have hr : 0 < v.resolution_ := lt_trans epsilon_pos hlo
  have hq : 0 ≤ v.stateManifold_.distanceAsFraction s1 s2 / v.resolution_ :=
    div_nonneg hd (le_of_lt hr)
  unfold discretization
  refine ⟨Int.ceil_nonneg hq, ?_⟩
  rw [Int.ceil_eq_zero_iff]
  constructor
  · intro h
    have h0 : v.stateManifold_.distanceAsFraction s1 s2 / v.resolution_ = 0 :=
      le_antisymm h.2 hq
    rcases div_eq_zero_iff.mp h0 with h1 | h1
    · exact h1
    · exact absurd h1 (ne_of_gt hr)
  · intro h
    rw [h, zero_div]
    exact ⟨by norm_num, le_refl _⟩

/-- Witness of C8: the line scenario from `0` to `10` at resolution `1/20`. -/
theorem discretization_nonneg_zero_iff_witness :
    0 ≤ (lineValidator (1 / 20)).stateManifold_.distanceAsFraction 0 10 ∧
    epsilon < (lineValidator (1 / 20)).resolution_ ∧
    (lineValidator (1 / 20)).resolution_ < 1 - epsilon ∧
    (0 ≤ discretization (lineValidator (1 / 20)) 0 10 ∧
      (discretization (lineValidator (1 / 20)) 0 10 = 0 ↔
        (lineValidator (1 / 20)).stateManifold_.distanceAsFraction 0 10 = 0)) :=
  ⟨by norm_num [lineValidator, lineManifold],
    by norm_num [lineValidator, epsilon],
    by norm_num [lineValidator, epsilon],
    discretization_nonneg_zero_iff (lineValidator (1 / 20)) 0 10
      (by norm_num [lineValidator, lineManifold])
      (by norm_num [lineValidator, epsilon])
      (by norm_num [lineValidator, epsilon])⟩

/-- C14: `setStateValidityCheckingResolution` raises exactly when the stored resolution is
below `epsilon` or above `1 - epsilon`, whatever the supplied value, and otherwise stores the
supplied value.  So after `defaultSettings` the call succeeds for every argument, and once
an out-of-range value is stored every later call raises and the stored resolution stays as
it is through any sequence of calls. -/
theorem setStateValidityCheckingResolution_checks_stored {σ : Type}
    (v : DiscreteMotionValidator σ) (resolution : ℚ) :
    ((setStateValidityCheckingResolution v resolution).1 = some Exception.resolutionOutOfRange ↔
      (v.resolution_ < epsilon ∨ v.resolution_ > 1 - epsilon)) ∧
    (¬ (v.resolution_ < epsilon ∨ v.resolution_ > 1 - epsilon) →
      setStateValidityCheckingResolution v resolution =
        (none, { v with resolution_ := resolution })) ∧
    setStateValidityCheckingResolution (defaultSettings v) resolution =
      (none, { defaultSettings v with resolution_ := resolution }) ∧
    ((v.resolution_ < epsilon ∨ v.resolution_ > 1 - epsilon) →
      ∀ (xs : List ℚ) (x : ℚ), setResolutions v xs = v ∧
        setStateValidityCheckingResolution (setResolutions v xs) x =
          (some Exception.resolutionOutOfRange, v)) := by
  refine ⟨?_, ?_, ?_, ?_⟩
  · rw [← outOfRange_iff]
    unfold setStateValidityCheckingResolution
    cases h : outOfRange v.resolution_ <;> simp
  · rw [← outOfRange_iff]
    intro h
    simp [setStateValidityCheckingResolution, h]
  · have h : outOfRange (defaultSettings v).resolution_ = false := by
      norm_num [defaultSettings, outOfRange, epsilon]
    simp [setStateValidityCheckingResolution, h]
  · rw [← outOfRange_iff]
    intro h xs x
    rw [setResolutions_of_outOfRange v h xs]
    simp [setStateValidityCheckingResolution, h]

/-- C15: with `s2` admissible, the linear scan tests the interior indices `1, 2, ..., j` in
increasing order and nothing after them when `j` is the smallest inadmissible index, and
`1, 2, ..., nd - 1` when every interior index is admissible; the whole sequence of events of
the call is given. -/
theorem checkMotionLastValid_probe_order {σ : Type} (v : DiscreteMotionValidator σ)
    (s1 s2 : σ) (lastValid : Option σ × ℚ) (hB : v.si_.isValid s2 = true) :
    (∀ j : ℤ, 1 ≤ j → j ≤ discretization v s1 s2 - 1 →
      v.si_.isValid (probe v s1 s2 (discretization v s1 s2) j) = false →
      (∀ k : ℤ, 1 ≤ k → k < j →
        v.si_.isValid (probe v s1 s2 (discretization v s1 s2) k) = true) →
      (checkMotionLastValid v s1 s2 lastValid).trace =
        Event.isValid s2 :: Event.allocState ::
          ((probeEvents v s1 s2 (discretization v s1 s2) (indices 1 j.toNat) ++
            ((lastValid.1.toList.map fun _ => Event.interpolate
                (((j - 1 : ℤ) : ℚ) / (discretization v s1 s2 : ℚ)) Dest.lastValidFirst) ++
              [Event.storeSecond (((j - 1 : ℤ) : ℚ) / (discretization v s1 s2 : ℚ))])) ++
            [Event.freeState])) ∧
    ((∀ j : ℤ, 1 ≤ j → j ≤ discretization v s1 s2 - 1 →
        v.si_.isValid (probe v s1 s2 (discretization v s1 s2) j) = true) →
      (checkMotionLastValid v s1 s2 lastValid).trace =
        Event.isValid s2 :: Event.allocState ::
          (probeEvents v s1 s2 (discretization v s1 s2)
            (indices 1 (discretization v s1 s2 - 1).toNat) ++ [Event.freeState])) := by
  constructor
  · intro j h1 hnd hj hmin
    unfold checkMotionLastValid
    simp only [hB, Bool.not_true, Bool.false_eq_true, if_false]
    rcases forLoop_cases v s1 s2 (discretization v s1 s2) lastValid 1 with
      ⟨hall, _⟩ | ⟨j', hj1, hjnd, hjv, hbefore, heq⟩
    · rw [hall j h1 (by omega)] at hj
      exact Bool.noConfusion hj
    · have hjj : j' = j := by
        rcases lt_trichotomy j' j with hlt | heq' | hgt
        · rw [hmin j' hj1 hlt] at hjv
          exact Bool.noConfusion hjv
        · exact heq'
        · rw [hbefore j h1 hgt] at hj
          exact Bool.noConfusion hj
      subst hjj
      rw [heq]
      have : (j' - 1 + 1).toNat = j'.toNat := by
        congr 1
        omega
      rw [this]
  · intro hall
    unfold checkMotionLastValid
    simp only [hB, Bool.not_true, Bool.false_eq_true, if_false]
    rcases forLoop_cases v s1 s2 (discretization v s1 s2) lastValid 1 with
      ⟨_, heq⟩ | ⟨j', hj1, hjnd, hjv, _, _⟩
    · rw [heq]
    · rw [hall j' hj1 (by omega)] at hjv
      exact Bool.noConfusion hjv

/-- Witness of C15: in the line scenario from `0` to `10` at resolution `1/20` the linear
scan tests the indices `1, ..., 8`, reports `7/20` and releases its scratch state. -/
theorem checkMotionLastValid_probe_order_witness :
    (lineValidator (1 / 20)).si_.isValid 10 = true ∧
    (checkMotionLastValid (lineValidator (1 / 20)) 0 10 (none, 0)).trace =
      Event.isValid 10 :: Event.allocState ::
        ((probeEvents (lineValidator (1 / 20)) 0 10 20 [1, 2, 3, 4, 5, 6, 7, 8] ++
          [Event.storeSecond (7 / 20)]) ++ [Event.freeState]) := by
  have hB : (lineValidator (1 / 20)).si_.isValid 10 = true := by decide
  have h := (checkMotionLastValid_probe_order (lineValidator (1 / 20)) 0 10 (none, 0) hB).1 8
    (by decide) (by rw [discretization_line]; decide)
    (by rw [discretization_line]; exact line_probe_eight)
    (by rw [discretization_line]; exact line_probe_before_eight)
  refine ⟨hB, ?_⟩
  rw [h, discretization_line]
  norm_num [indices]

/-- C16: assume `s1` is admissible and is the state at parameter `0` of the motion.  Whenever
the linear scan reports the last-valid fraction `(j - 1) / nd`, the index `j` is an interior
index, every index `k` with `0 ≤ k ≤ j - 1` is admissible and `j` is not, so that the state at
the reported fraction, which is what `lastValid.first` receives, is admissible. -/
theorem checkMotionLastValid_report_valid {σ : Type} (v : DiscreteMotionValidator σ)
    (s1 s2 : σ) (lastValid : Option σ × ℚ) (j : ℤ)
    (hA : v.si_.isValid s1 = true) (h0 : v.stateManifold_.interpolate s1 s2 0 = s1)
    (hrep : Event.storeSecond (((j - 1 : ℤ) : ℚ) / (discretization v s1 s2 : ℚ)) ∈
      (checkMotionLastValid v s1 s2 lastValid).trace) :
    1 ≤ j ∧ j ≤ discretization v s1 s2 - 1 ∧
    (∀ k : ℤ, 0 ≤ k → k ≤ j - 1 →
      v.si_.isValid (v.stateManifold_.interpolate s1 s2
        ((k : ℚ) / (discretization v s1 s2 : ℚ))) = true) ∧
    v.si_.isValid (v.stateManifold_.interpolate s1 s2
      ((j : ℚ) / (discretization v s1 s2 : ℚ))) = false ∧
    v.si_.isValid (v.stateManifold_.interpolate s1 s2
      (((j - 1 : ℤ) : ℚ) / (discretization v s1 s2 : ℚ))) = true ∧
    (checkMotionLastValid v s1 s2 lastValid).lastValid =
      (lastValid.1.map fun _ => v.stateManifold_.interpolate s1 s2
        (((j - 1 : ℤ) : ℚ) / (discretization v s1 s2 : ℚ)),
        ((j - 1 : ℤ) : ℚ) / (discretization v s1 s2 : ℚ)) := by
  obtain ⟨hB, hmem⟩ := storeSecond_mem_linearScan v s1 s2 lastValid _ hrep
  obtain ⟨j', hj1, hjnd, hf, hjv, hbefore, _, hlv⟩ :=
    forLoop_of_store_mem v s1 s2 _ lastValid 1 _ hmem
  have hjj : j - 1 = j' - 1 := intCast_div_injective _ _ _ (by omega) hf
  have hj : j' = j := by omega
  subst hj
  have hall : ∀ k : ℤ, 0 ≤ k → k ≤ j' - 1 →
      v.si_.isValid (v.stateManifold_.interpolate s1 s2
        ((k : ℚ) / (discretization v s1 s2 : ℚ))) = true := by
    intro k hk0 hk
    rcases eq_or_lt_of_le hk0 with rfl | hpos
    · rw [Int.cast_zero, zero_div, h0]
      exact hA
    · exact hbefore k (by omega) (by omega)
  refine ⟨hj1, by omega, hall, hjv, hall (j' - 1) (by omega) (le_refl _), ?_⟩
  unfold checkMotionLastValid
  simp only [hB, Bool.not_true, Bool.false_eq_true, if_false]
  exact hlv

/-- Witness of C16: the line scenario from `0` to `10` at resolution `1/20`, where the linear
scan reports the fraction `(8 - 1) / 20`. -/
theorem checkMotionLastValid_report_valid_witness :
    (lineValidator (1 / 20)).si_.isValid 0 = true ∧
    (lineValidator (1 / 20)).stateManifold_.interpolate 0 10 0 = 0 ∧
    Event.storeSecond ((((8 : ℤ) - 1 : ℤ) : ℚ) / (discretization (lineValidator (1 / 20)) 0 10 : ℚ))
      ∈ (checkMotionLastValid (lineValidator (1 / 20)) 0 10 (some 0, 0)).trace ∧
    (lineValidator (1 / 20)).si_.isValid ((lineValidator (1 / 20)).stateManifold_.interpolate 0 10
      ((((8 : ℤ) - 1 : ℤ) : ℚ) / (discretization (lineValidator (1 / 20)) 0 10 : ℚ))) = true := by
  have hA : (lineValidator (1 / 20)).si_.isValid 0 = true := by decide
  have h0 : (lineValidator (1 / 20)).stateManifold_.interpolate 0 10 0 = 0 := by
    norm_num [lineValidator, lineManifold]
  have hB : (lineValidator (1 / 20)).si_.isValid 10 = true := by decide
  have hrep : Event.storeSecond
      ((((8 : ℤ) - 1 : ℤ) : ℚ) / (discretization (lineValidator (1 / 20)) 0 10 : ℚ)) ∈
      (checkMotionLastValid (lineValidator (1 / 20)) 0 10 (some 0, 0)).trace := by
    have h := (forLoop_first_invalid_trace (lineValidator (1 / 20)) 0 10 20 (some 0, 0) 1 8
      (by decide) (by decide) line_probe_eight line_probe_before_eight).1
    unfold checkMotionLastValid
    simp only [hB, Bool.not_true, Bool.false_eq_true, if_false, discretization_line]
    exact List.mem_cons_of_mem _ (List.mem_cons_of_mem _ (List.mem_append_left _ h))
  exact ⟨hA, h0, hrep,
    (checkMotionLastValid_report_valid (lineValidator (1 / 20)) 0 10 (some 0, 0) 8 hA h0
      hrep).2.2.2.2.1⟩

/-- C19: the linear scan writes to the caller's `lastValid` exactly when `s2` is admissible
and some interior probe is inadmissible.  When it returns true, and when `s2` is inadmissible,
`lastValid` is as the caller passed it and no write to it is performed.  When `s2` is
admissible and an interior probe fails, the fraction is stored in `lastValid.second`, also
when `lastValid.first` is null, which then stays null. -/
theorem checkMotionLastValid_frame {σ : Type} (v : DiscreteMotionValidator σ) (s1 s2 : σ)
    (lastValid : Option σ × ℚ) :
    ((checkMotionLastValid v s1 s2 lastValid).trace.any Event.isWrite = true ↔
      (v.si_.isValid s2 = true ∧ ∃ j : ℤ, 1 ≤ j ∧ j ≤ discretization v s1 s2 - 1 ∧
        v.si_.isValid (probe v s1 s2 (discretization v s1 s2) j) = false)) ∧
    ((checkMotionLastValid v s1 s2 lastValid).result = true →
      (checkMotionLastValid v s1 s2 lastValid).lastValid = lastValid ∧
        (checkMotionLastValid v s1 s2 lastValid).trace.any Event.isWrite = false) ∧
    (v.si_.isValid s2 = false →
      (checkMotionLastValid v s1 s2 lastValid).lastValid = lastValid ∧
        (checkMotionLastValid v s1 s2 lastValid).trace.any Event.isWrite = false) ∧
    (v.si_.isValid s2 = true →
      (∃ j : ℤ, 1 ≤ j ∧ j ≤ discretization v s1 s2 - 1 ∧
        v.si_.isValid (probe v s1 s2 (discretization v s1 s2) j) = false) →
      Event.storeSecond (checkMotionLastValid v s1 s2 lastValid).lastValid.2 ∈
        (checkMotionLastValid v s1 s2 lastValid).trace ∧
      (lastValid.1 = none → (checkMotionLastValid v s1 s2 lastValid).lastValid.1 = none)) := by
  cases hB : v.si_.isValid s2 with
  | false =>
    rw [checkMotionLastValid_of_s2_invalid v s1 s2 lastValid hB]
    refine ⟨?_, ?_, ?_, ?_⟩
    · simp [Event.isWrite]
    · intro h
      exact Bool.noConfusion h
    · intro _
      exact ⟨rfl, by simp [Event.isWrite]⟩
    · intro h
      exact Bool.noConfusion h
  | true =>
    rw [checkMotionLastValid_of_s2_valid v s1 s2 lastValid hB]
    rcases forLoop_cases v s1 s2 (discretization v s1 s2) lastValid 1 with
      ⟨hall, heq⟩ | ⟨j, hj1, hjnd, hjv, _, heq⟩
    · rw [heq]
      have hno : ¬ ∃ j : ℤ, 1 ≤ j ∧ j ≤ discretization v s1 s2 - 1 ∧
          v.si_.isValid (probe v s1 s2 (discretization v s1 s2) j) = false := by
        rintro ⟨j, h1, h2, h3⟩
        rw [hall j h1 (by omega)] at h3
        exact Bool.noConfusion h3
      have hany : (Event.isValid s2 :: Event.allocState ::
          (probeEvents v s1 s2 (discretization v s1 s2)
            (indices 1 (discretization v s1 s2 - 1).toNat) ++ [Event.freeState])).any
            Event.isWrite = false := by
        simp only [List.any_cons, List.any_append, any_isWrite_probeEvents, List.any_nil,
          Event.isWrite, Bool.or_false]
      refine ⟨?_, ?_, ?_, ?_⟩
      · constructor
        · intro h
          rw [hany] at h
          exact Bool.noConfusion h
        · intro h
          exact absurd h.2 hno
      · intro _
        exact ⟨rfl, hany⟩
      · intro h
        exact Bool.noConfusion h
      · intro _ h
        exact absurd h hno
    · rw [heq]
      have hyes : ∃ j : ℤ, 1 ≤ j ∧ j ≤ discretization v s1 s2 - 1 ∧
          v.si_.isValid (probe v s1 s2 (discretization v s1 s2) j) = false :=
        ⟨j, hj1, by omega, hjv⟩
      have hmem : Event.storeSecond (((j - 1 : ℤ) : ℚ) / (discretization v s1 s2 : ℚ)) ∈
          Event.isValid s2 :: Event.allocState ::
            ((probeEvents v s1 s2 (discretization v s1 s2) (indices 1 (j - 1 + 1).toNat) ++
              ((lastValid.1.toList.map fun _ => Event.interpolate
                  (((j - 1 : ℤ) : ℚ) / (discretization v s1 s2 : ℚ)) Dest.lastValidFirst) ++
                [Event.storeSecond (((j - 1 : ℤ) : ℚ) / (discretization v s1 s2 : ℚ))])) ++
              [Event.freeState]) :=
        List.mem_cons_of_mem _ (List.mem_cons_of_mem _ (List.mem_append_left _
          (List.mem_append_right _ (List.mem_append_right _ (List.mem_singleton_self _)))))
      refine ⟨?_, ?_, ?_, ?_⟩
      · constructor
        · intro _
          exact ⟨rfl, hyes⟩
        · intro _
          exact List.any_eq_true.mpr ⟨_, hmem, rfl⟩
      · intro h
        exact Bool.noConfusion h
      · intro h
        exact Bool.noConfusion h
      · intro _ _
        refine ⟨hmem, ?_⟩
        intro hnone
        simp only [hnone, Option.map_none']

/-- C1 fails on the code: on the interval `[0, 10]`, for the motion from `0` to `15/2` at
resolution `2 ^ (-31)`, with discretization count `1610612736`, the linear scan returns true
and the binary subdivision returns false: its third midpoint sum overflows the `int` range
and the state it probes lies outside the interval. -/
theorem checkMotion_variants_disagree :
    discretization (boundedValidator (1 / 2 ^ 31)) 0 (15 / 2) = 1610612736 ∧
    (checkMotionLastValid (boundedValidator (1 / 2 ^ 31)) 0 (15 / 2) (none, 0)).result = true ∧
    ∀ fuel : ℕ,
      (checkMotion (fuel + 3) (boundedValidator (1 / 2 ^ 31)) 0 (15 / 2)).map Prod.fst =
        some false := by
  refine ⟨discretization_bounded_overflow, ?_, ?_⟩
  · rw [linearScan_result_iff]
    exact ⟨by norm_num [boundedValidator, boundedSpace],
      fun j h1 h2 => bounded_probe_valid _ j h1 h2⟩
  · intro fuel
    rw [checkMotion_bounded_overflow]
    rfl

/-- C2 fails on the code: in the overflow scenario `s2` and every interior probe index
`1 ≤ j ≤ nd - 1` are admissible, and the binary subdivision returns false. -/
theorem checkMotion_rejects_admissible_motion :
    (boundedValidator (1 / 2 ^ 31)).si_.isValid (15 / 2) = true ∧
    (∀ j : ℤ, 1 ≤ j → j ≤ discretization (boundedValidator (1 / 2 ^ 31)) 0 (15 / 2) - 1 →
      (boundedValidator (1 / 2 ^ 31)).si_.isValid
        ((boundedValidator (1 / 2 ^ 31)).stateManifold_.interpolate 0 (15 / 2)
          ((j : ℚ) / (discretization (boundedValidator (1 / 2 ^ 31)) 0 (15 / 2) : ℚ))) = true) ∧
    ∀ fuel : ℕ, ∃ trace : List (Event ℚ),
      checkMotion (fuel + 3) (boundedValidator (1 / 2 ^ 31)) 0 (15 / 2) = some (false, trace) := by
  refine ⟨by norm_num [boundedValidator, boundedSpace],
    fun j h1 h2 => bounded_probe_valid _ j h1 h2,
    fun fuel => ⟨_, checkMotion_bounded_overflow fuel⟩⟩

/-- C4: if `s2` is inadmissible, both `checkMotion` variants return false and the only event
they perform is the admissibility test on `s2`: no interpolation, no test on an interpolated
state (and the caller's `lastValid` is as it was).  The binary subdivision returns without a
single pass of its loop. -/
theorem checkMotion_short_circuit {σ : Type} (fuel : ℕ) (v : DiscreteMotionValidator σ)
    (s1 s2 : σ) (lastValid : Option σ × ℚ) (hB : v.si_.isValid s2 = false) :
    checkMotionLastValid v s1 s2 lastValid =
        { result := false, lastValid := lastValid, trace := [Event.isValid s2] } ∧
      checkMotion fuel v s1 s2 = some (false, [Event.isValid s2]) := by
  simp [checkMotionLastValid, checkMotion, hB]

/-- Witness of C4: the motion from `0` to the inadmissible point `5` of the line scenario. -/
theorem checkMotion_short_circuit_witness :
    (lineValidator (1 / 20)).si_.isValid 5 = false ∧
      (checkMotionLastValid (lineValidator (1 / 20)) 0 5 (none, 0) =
          { result := false, lastValid := (none, 0), trace := [Event.isValid 5] } ∧
        checkMotion 0 (lineValidator (1 / 20)) 0 5 = some (false, [Event.isValid 5])) :=
  ⟨by decide, checkMotion_short_circuit 0 (lineValidator (1 / 20)) 0 5 (none, 0) (by decide)⟩

/-- C6 fails on the code: after `defaultSettings` the supplied values `5` and `-1`, neither of
which is strictly inside `(epsilon, 1 - epsilon)`, raise nothing and are stored. -/
theorem setStateValidityCheckingResolution_accepts_bad_value :
    ¬ (epsilon < 5 ∧ (5 : ℚ) < 1 - epsilon) ∧
    setStateValidityCheckingResolution (defaultSettings (lineValidator 0)) 5 =
      (none, lineValidator 5) ∧
    ¬ (epsilon < -1 ∧ (-1 : ℚ) < 1 - epsilon) ∧
    setStateValidityCheckingResolution (defaultSettings (lineValidator 0)) (-1) =
      (none, lineValidator (-1)) := by
  have h : outOfRange (defaultSettings (lineValidator 0)).resolution_ = false := by
    norm_num [defaultSettings, outOfRange, epsilon]
  refine ⟨?_, ?_, ?_, ?_⟩
  · norm_num [epsilon]
  · simp only [setStateValidityCheckingResolution, h]
    rfl
  · norm_num [epsilon]
  · simp only [setStateValidityCheckingResolution, h]
    rfl

/-- C9: when `s2` is admissible and the discretization count is at most `1`, both
`checkMotion` variants return true without any interior probe: the binary subdivision
performs only the test on `s2` and returns without a single pass of its loop, the linear scan
performs only that test and the allocation and release of its scratch state, and it leaves
`lastValid` as it was, with no store to it. -/
theorem checkMotion_short_motion {σ : Type} (fuel : ℕ) (v : DiscreteMotionValidator σ)
    (s1 s2 : σ) (lastValid : Option σ × ℚ) (hB : v.si_.isValid s2 = true)
    (hnd : discretization v s1 s2 ≤ 1) :
    checkMotionLastValid v s1 s2 lastValid =
        { result := true, lastValid := lastValid,
          trace := [Event.isValid s2, Event.allocState, Event.freeState] } ∧
      checkMotion fuel v s1 s2 = some (true, [Event.isValid s2]) := by
  constructor
  · unfold checkMotionLastValid
    simp only [hB, Bool.not_true, Bool.false_eq_true, if_false]
    rw [forLoop_of_not_lt v s1 s2 _ lastValid 1 (by omega)]
    rfl
  · exact checkMotion_of_short fuel v s1 s2 hB (by omega)

/-- Witness of C9: in the line scenario the motion from `1` to `1` has discretization
count `0`. -/
theorem checkMotion_short_motion_witness :
    (lineValidator (1 / 20)).si_.isValid 1 = true ∧
    discretization (lineValidator (1 / 20)) 1 1 ≤ 1 ∧
    (checkMotionLastValid (lineValidator (1 / 20)) 1 1 (none, 0) =
        { result := true, lastValid := (none, 0),
          trace := [Event.isValid 1, Event.allocState, Event.freeState] } ∧
      checkMotion 0 (lineValidator (1 / 20)) 1 1 = some (true, [Event.isValid 1])) :=
  ⟨by decide,
    by norm_num [discretization, lineValidator, lineManifold],
    checkMotion_short_motion 0 (lineValidator (1 / 20)) 1 1 (none, 0) (by decide)
      (by norm_num [discretization, lineValidator, lineManifold])⟩

/-- C10: in the line scenario (space `[0, 10]`, inadmissible region `[4, 6]`) with `s1 = 0`,
`s2 = 10` and resolution `1/20`: the distance fraction is `1`, the discretization count is
`20`, probe `j` lies at `j / 2`, index `8` is the first inadmissible one, the linear scan
returns false with last-valid fraction `7/20` and last-valid point `7/2`, and the binary
subdivision returns false as well, on its first probe, at index `10`. -/
theorem checkMotion_line_scenario :
    (lineValidator (1 / 20)).stateManifold_.distanceAsFraction 0 10 = 1 ∧
    discretization (lineValidator (1 / 20)) 0 10 = 20 ∧
    (∀ j : ℤ, probe (lineValidator (1 / 20)) 0 10 20 j = (j : ℚ) / 2) ∧
    (lineValidator (1 / 20)).si_.isValid (probe (lineValidator (1 / 20)) 0 10 20 8) = false ∧
    (∀ k : ℤ, 1 ≤ k → k < 8 →
      (lineValidator (1 / 20)).si_.isValid (probe (lineValidator (1 / 20)) 0 10 20 k) = true) ∧
    (checkMotionLastValid (lineValidator (1 / 20)) 0 10 (some 0, 0)).result = false ∧
    (checkMotionLastValid (lineValidator (1 / 20)) 0 10 (some 0, 0)).lastValid =
      (some (7 / 2), 7 / 20) ∧
    (∀ fuel : ℕ, checkMotion (fuel + 1) (lineValidator (1 / 20)) 0 10 =
      some (false, Event.isValid 10 :: Event.allocState ::
        (probeEvents (lineValidator (1 / 20)) 0 10 20 [10] ++ [Event.freeState]))) := by
  have hB : (lineValidator (1 / 20)).si_.isValid 10 = true := by decide
  have hlin := forLoop_first_invalid (lineValidator (1 / 20)) 0 10 20 (some 0, 0) 1 8
    (by decide) (by decide) line_probe_eight line_probe_before_eight
  refine ⟨by norm_num [lineValidator, lineManifold], discretization_line, line_probe,
    line_probe_eight, line_probe_before_eight, ?_, ?_, ?_⟩
  · rw [checkMotionLastValid_of_s2_valid _ _ _ _ hB, discretization_line]
    exact hlin.1
  · rw [checkMotionLastValid_of_s2_valid _ _ _ _ hB, discretization_line]
    simp only
    rw [hlin.2]
    norm_num [lineValidator, lineManifold]
  · intro fuel
    have hm : (wrapInt ((1 : ℤ) + 19)).tdiv 2 = 10 := by decide
    have hv : (lineValidator (1 / 20)).si_.isValid
        (probe (lineValidator (1 / 20)) 0 10 20 ((wrapInt ((1 : ℤ) + 19)).tdiv 2)) = false := by
      rw [hm, line_probe]
      norm_num [lineValidator, lineSpace]
    rw [checkMotion_of_long _ _ _ _ hB (by rw [discretization_line]; decide),
      discretization_line]
    rw [show ((20 : ℤ) - 1) = 19 from by norm_num,
      whileLoop_of_break _ 0 10 20 fuel (1, 19) []
        (loopBody_of_invalid _ 0 10 20 (1, 19) [] hv)]
    simp only [loopBody_trace]
    rw [show ((1 : ℤ), (19 : ℤ)).1 + ((1 : ℤ), (19 : ℤ)).2 = (1 : ℤ) + 19 from rfl, hm]

/-- C11 fails on the code: on the line without bounds, where every state is admissible, the
binary subdivision of the motion from `0` to `15/2` at resolution `2 ^ (-31)`, with
discretization count `1610612736 ≥ 1`, does not return, however many passes its loop is
allowed: once a midpoint sum has overflowed the `int` range the queue never empties. -/
theorem checkMotion_does_not_terminate :
    (1 : ℤ) ≤ discretization (freeValidator (1 / 2 ^ 31)) 0 (15 / 2) ∧
    discretization (freeValidator (1 / 2 ^ 31)) 0 (15 / 2) < 2 ^ 31 ∧
    ∀ fuel : ℕ, checkMotion fuel (freeValidator (1 / 2 ^ 31)) 0 (15 / 2) = none := by
  refine ⟨?_, ?_, checkMotion_free_overflow⟩
  · rw [discretization_free_overflow]; decide
  · rw [discretization_free_overflow]; decide

/-- C12, as stated, fails: in the line scenario the motion from `0` to the inadmissible point
`5` is rejected by both variants without any scratch state being acquired; and the motion
from `1` to `1`, with admissible end and discretization count `0`, is accepted by the
binary subdivision without any scratch state being acquired. -/
theorem checkMotion_without_scratch :
    (checkMotionLastValid (lineValidator (1 / 20)) 0 5 (none, 0)).trace.countP Event.isAlloc = 0 ∧
    (checkMotion 0 (lineValidator (1 / 20)) 0 5).map (fun r => r.2.countP Event.isAlloc) =
      some 0 ∧
    (checkMotion 0 (lineValidator (1 / 20)) 1 1).map (fun r => r.2.countP Event.isAlloc) =
      some 0 := by
  have h5 : (lineValidator (1 / 20)).si_.isValid 5 = false := by decide
  have h1 : (lineValidator (1 / 20)).si_.isValid 1 = true := by decide
  have hnd : ¬ discretization (lineValidator (1 / 20)) 1 1 ≥ 2 := by
    norm_num [discretization, lineValidator, lineManifold]
  refine ⟨?_, ?_, ?_⟩
  · rw [checkMotionLastValid_of_s2_invalid _ _ _ _ h5]
    rfl
  · rw [checkMotion_of_s2_invalid _ _ _ _ h5]
    rfl
  · rw [checkMotion_of_short _ _ _ _ h1 hnd]
    rfl

/-- C12, amended: every call acquires at most one scratch state and releases as many as it
acquires, the release being its last event.  The linear scan acquires and releases exactly
one when `s2` is admissible and none when it is not; a binary subdivision that returns has
acquired and released exactly one when `s2` is admissible and `nd ≥ 2`, and none otherwise;
and the binary subdivision does return, within `nd - 1` passes of its loop, when
`nd ≤ 2 ^ 30`. -/
theorem checkMotion_scratch_discipline {σ : Type} (v : DiscreteMotionValidator σ) (s1 s2 : σ)
    (lastValid : Option σ × ℚ) :
    (checkMotionLastValid v s1 s2 lastValid).trace.countP Event.isAlloc =
      (if v.si_.isValid s2 = true then 1 else 0) ∧
    (checkMotionLastValid v s1 s2 lastValid).trace.countP Event.isFree =
      (if v.si_.isValid s2 = true then 1 else 0) ∧
    (v.si_.isValid s2 = true →
      (checkMotionLastValid v s1 s2 lastValid).trace.getLast? = some Event.freeState) ∧
    (∀ (fuel : ℕ) (r : Bool × List (Event σ)), checkMotion fuel v s1 s2 = some r →
      r.2.countP Event.isAlloc =
        (if v.si_.isValid s2 = true ∧ 2 ≤ discretization v s1 s2 then 1 else 0) ∧
      r.2.countP Event.isFree =
        (if v.si_.isValid s2 = true ∧ 2 ≤ discretization v s1 s2 then 1 else 0) ∧
      (v.si_.isValid s2 = true → 2 ≤ discretization v s1 s2 →
        r.2.getLast? = some Event.freeState)) ∧
    (discretization v s1 s2 ≤ 2 ^ 30 → ∀ fuel : ℕ,
      (discretization v s1 s2 - 1).toNat ≤ fuel → (checkMotion fuel v s1 s2).isSome = true) := by
  have hlv : ∀ (f : ℚ) (p : Event σ → Bool),
      p (Event.interpolate f Dest.lastValidFirst) = false →
      List.countP p (List.map (fun _ => (Event.interpolate f Dest.lastValidFirst : Event σ))
        lastValid.1.toList) = 0 := by
    intro f p hp
    cases lastValid.1 <;> simp [hp]
  have hbin : ∀ (fuel : ℕ) (r : Bool × List (Event σ)), checkMotion fuel v s1 s2 = some r →
      r.2.countP Event.isAlloc =
        (if v.si_.isValid s2 = true ∧ 2 ≤ discretization v s1 s2 then 1 else 0) ∧
      r.2.countP Event.isFree =
        (if v.si_.isValid s2 = true ∧ 2 ≤ discretization v s1 s2 then 1 else 0) ∧
      (v.si_.isValid s2 = true → 2 ≤ discretization v s1 s2 →
        r.2.getLast? = some Event.freeState) := by
    intro fuel r hr
    rcases checkMotion_shape fuel v s1 s2 r hr with ⟨hcase, htr⟩ | ⟨hB, hnd, ks, htr⟩
    · have hcond : ¬ (v.si_.isValid s2 = true ∧ 2 ≤ discretization v s1 s2) := by
        rintro ⟨h1, h2⟩
        rcases hcase with h | h
        · rw [h1] at h
          exact Bool.noConfusion h
        · exact h h2
      rw [htr, if_neg hcond]
      refine ⟨rfl, rfl, fun h1 h2 => absurd ⟨h1, h2⟩ hcond⟩
    · have hcond : v.si_.isValid s2 = true ∧ 2 ≤ discretization v s1 s2 := ⟨hB, hnd⟩
      rw [htr, if_pos hcond]
      refine ⟨?_, ?_, fun _ _ => getLast?_framed _ _ _ _⟩
      · simp [Event.isAlloc, countP_isAlloc_probeEvents]
      · simp [Event.isFree, countP_isFree_probeEvents]
  have hret : discretization v s1 s2 ≤ 2 ^ 30 → ∀ fuel : ℕ,
      (discretization v s1 s2 - 1).toNat ≤ fuel → (checkMotion fuel v s1 s2).isSome = true := by
    intro hle fuel hfuel
    cases hB : v.si_.isValid s2 with
    | false => rw [checkMotion_of_s2_invalid fuel v s1 s2 hB]; rfl
    | true =>
      by_cases hnd : discretization v s1 s2 ≥ 2
      · obtain ⟨b, ks, h, _⟩ := checkMotion_of_fits fuel v s1 s2 hB hnd hle hfuel
        rw [h]; rfl
      · rw [checkMotion_of_short fuel v s1 s2 hB hnd]; rfl
  cases hB : v.si_.isValid s2 with
  | false =>
    rw [hB] at hbin
    refine ⟨?_, ?_, ?_, hbin, hret⟩
    · simp [checkMotionLastValid, hB, Event.isAlloc]
    · simp [checkMotionLastValid, hB, Event.isFree]
    · intro h
      exact Bool.noConfusion h
  | true =>
    rw [hB] at hbin
    refine ⟨?_, ?_, ?_, hbin, hret⟩
    · unfold checkMotionLastValid
      simp only [hB, Bool.not_true, Bool.false_eq_true, if_false, if_true]
      rcases forLoop_cases v s1 s2 (discretization v s1 s2) lastValid 1 with
        ⟨_, heq⟩ | ⟨j, _, _, _, _, heq⟩
      · rw [heq]
        simp [Event.isAlloc, countP_isAlloc_probeEvents]
      · rw [heq]
        simp only [List.countP_cons, List.countP_append, List.countP_nil,
          countP_isAlloc_probeEvents, hlv _ Event.isAlloc rfl]
        simp [Event.isAlloc]
    · unfold checkMotionLastValid
      simp only [hB, Bool.not_true, Bool.false_eq_true, if_false, if_true]
      rcases forLoop_cases v s1 s2 (discretization v s1 s2) lastValid 1 with
        ⟨_, heq⟩ | ⟨j, _, _, _, _, heq⟩
      · rw [heq]
        simp [Event.isFree, countP_isFree_probeEvents]
      · rw [heq]
        simp only [List.countP_cons, List.countP_append, List.countP_nil,
          countP_isFree_probeEvents, hlv _ Event.isFree rfl]
        simp [Event.isFree]
    · intro _
      unfold checkMotionLastValid
      simp only [hB, Bool.not_true, Bool.false_eq_true, if_false]
      exact getLast?_framed _ _ _ _

/-- C17 fails on the code: in the overflow scenario, where `s2` and all interior indices are
admissible and `nd = 1610612736`, the binary subdivision probes the indices `805306368`,
`402653184` and `-939524096` and stops: the third index is not in `[1, nd - 1]`, and the
probed sequence is not a rearrangement of `1, ..., nd - 1`. -/
theorem checkMotion_probes_outside_range :
    (∀ fuel : ℕ, checkMotion (fuel + 3) (boundedValidator (1 / 2 ^ 31)) 0 (15 / 2) =
      some (false, Event.isValid (15 / 2) :: Event.allocState ::
        (probeEvents (boundedValidator (1 / 2 ^ 31)) 0 (15 / 2)
          (discretization (boundedValidator (1 / 2 ^ 31)) 0 (15 / 2))
          [805306368, 402653184, -939524096] ++ [Event.freeState]))) ∧
    ¬ ((1 : ℤ) ≤ -939524096 ∧
      (-939524096 : ℤ) ≤ discretization (boundedValidator (1 / 2 ^ 31)) 0 (15 / 2) - 1) ∧
    ¬ ([805306368, 402653184, -939524096] : List ℤ).Perm
      (indices 1 (discretization (boundedValidator (1 / 2 ^ 31)) 0 (15 / 2) - 1).toNat) := by
  refine ⟨?_, ?_, ?_⟩
  · intro fuel
    rw [discretization_bounded_overflow]
    exact checkMotion_bounded_overflow fuel
  · rintro ⟨h, _⟩
    exact absurd h (by decide)
  · intro hperm
    have hmem := (mem_indices _ _ _).mp
      (hperm.subset (List.mem_cons_of_mem _ (List.mem_cons_of_mem _ (List.mem_singleton_self _))))
    exact absurd hmem.1 (by decide)

/-- C18 fails on the code: in the overflow scenario the third `interpolate` call of the binary
subdivision is made with the parameter `-939524096 / 1610612736 = -7/12`, which is
negative. -/
theorem checkMotion_interpolates_outside :
    (∀ fuel : ℕ, ∃ r : Bool × List (Event ℚ),
      checkMotion (fuel + 3) (boundedValidator (1 / 2 ^ 31)) 0 (15 / 2) = some r ∧
        Event.interpolate (-7 / 12) Dest.test ∈ r.2) ∧
    ((-939524096 : ℤ) : ℚ) / ((1610612736 : ℤ) : ℚ) = -7 / 12 ∧ (-7 / 12 : ℚ) < 0 := by
  have ht : ((-939524096 : ℤ) : ℚ) / ((1610612736 : ℤ) : ℚ) = -7 / 12 := by norm_num
  refine ⟨?_, ht, by norm_num⟩
  intro fuel
  refine ⟨_, checkMotion_bounded_overflow fuel, ?_⟩
  simp only [probeEvents, ht, List.mem_cons, List.mem_append, true_or, or_true]

end ompl.base
